import Mathlib

/-!
Shallow embedding of the `packer` Go module (gford1000-go/packer): the
envelope-key provider (`item_key.go`), the V1 packing and unpacking engine
(`item_packing_v1.go`), the public facade `Pack` / `PackKey` / `Unpack`
(pack.go) and `EncryptedItem.GetValues` (encrypted_item.go).

Byte strings are modelled as `List Nat` (Go strings and `[]byte` are both byte
sequences).  The external serialisation codec (`github.com/gford1000-go/serialise`)
is out of the repository's scope; it is modelled from its documented contract:
a versioned, self-describing encoding of heterogeneous values with
`FromBytesMany (ToBytesMany vs) = vs`, plus optional AES-GCM encryption of the
whole output, where decryption succeeds exactly under the matching key.
The model uses one concrete injective encoding with those properties.
Randomness (crypto/rand) is modelled by explicit streams passed in as
parameters: the freshly drawn DEK bytes and the stream of random characters
used for attribute-name generation.
-/

namespace Packer

/-- Byte strings: Go `string` and `[]byte` are both byte sequences. -/
abbrev GoStr := List Nat

/-- The values the serialisation codec can carry, as used by this module:
booleans, int8/int64, strings, byte slices, string slices, and other opaque
scalar payloads (`vOther`, covering the remaining codec-supported types). -/
inductive SValue where
  | vBool (b : Bool)
  | vInt8 (n : Int)
  | vInt64 (n : Int)
  | vString (s : GoStr)
  | vBytes (b : List Nat)
  | vStrings (ss : List GoStr)
  | vOther (tag : Nat) (payload : List Nat)
deriving DecidableEq, Repr

/-- Length-prefixed encoding of a byte string. -/
def encStr (s : GoStr) : List Nat := s.length :: s

/-- Encoding of an integer: sign marker then magnitude. -/
def encInt (n : Int) : List Nat := [if n < 0 then 1 else 0, n.natAbs]

/-- Modelled from the spec: the codec's self-describing encoding of one value
(tag byte followed by the payload). -/
def encodeOne : SValue → List Nat
  | .vBool b => [0, cond b 1 0]
  | .vInt8 n => 1 :: encInt n
  | .vInt64 n => 2 :: encInt n
  | .vString s => 3 :: encStr s
  | .vBytes b => 4 :: encStr b
  | .vStrings ss => 5 :: ss.length :: (ss.map encStr).flatten
  | .vOther tag payload => 6 :: tag :: encStr payload

/-- Modelled from the spec: `serialise.ToBytesMany` without encryption —
count-prefixed concatenation of the individual encodings. -/
def encodeMany (vs : List SValue) : List Nat :=
  vs.length :: (vs.map encodeOne).flatten

/-- Decode a length-prefixed byte string, returning it and the rest. -/
def decStr : List Nat → Option (GoStr × List Nat)
  | n :: rest => if rest.length < n then none else some (rest.take n, rest.drop n)
  | [] => none

/-- Decode an integer (sign marker then magnitude). -/
def decInt : List Nat → Option (Int × List Nat)
  | 0 :: m :: rest => some ((m : Int), rest)
  | 1 :: m :: rest => some (-(m : Int), rest)
  | _ => none

/-- Decode `count` consecutive length-prefixed strings. -/
def decStrs : Nat → List Nat → Option (List GoStr × List Nat)
  | 0, rest => some ([], rest)
  | n + 1, data => do
    let (s, r) ← decStr data
    let (ss, r') ← decStrs n r
    pure (s :: ss, r')

/-- Decode one codec value, returning it and the remaining bytes. -/
def decodeOne : List Nat → Option (SValue × List Nat)
  | 0 :: b :: rest =>
    if b = 1 then some (.vBool true, rest)
    else if b = 0 then some (.vBool false, rest) else none
  | 1 :: rest => (decInt rest).map fun (n, r) => (.vInt8 n, r)
  | 2 :: rest => (decInt rest).map fun (n, r) => (.vInt64 n, r)
  | 3 :: rest => (decStr rest).map fun (s, r) => (.vString s, r)
  | 4 :: rest => (decStr rest).map fun (b, r) => (.vBytes b, r)
  | 5 :: n :: rest => (decStrs n rest).map fun (ss, r) => (.vStrings ss, r)
  | 6 :: tag :: rest => (decStr rest).map fun (p, r) => (.vOther tag p, r)
  | _ => none

/-- Decode `count` consecutive codec values. -/
def decodeList : Nat → List Nat → Option (List SValue × List Nat)
  | 0, rest => some ([], rest)
  | n + 1, data => do
    let (v, r) ← decodeOne data
    let (vs, r') ← decodeList n r
    pure (v :: vs, r')

/-- Modelled from the spec: `serialise.FromBytesMany` without encryption —
the whole input must be consumed. -/
def decodeMany (data : List Nat) : Option (List SValue) :=
  match data with
  | n :: rest =>
    match decodeList n rest with
    | some (vs, []) => some vs
    | _ => none
  | [] => none

/-- Modelled from the spec: AES-GCM encryption under `key`.  The model tags the
payload with the key so that decryption succeeds exactly under the same key
(a wrong key fails authentication), which is the contract the module relies on. -/
def aesEnc (key payload : List Nat) : List Nat :=
  key.length :: (key ++ payload)

/-- Modelled from the spec: AES-GCM decryption; fails unless the same key was
used for encryption. -/
def aesDec (key data : List Nat) : Option (List Nat) :=
  match data with
  | n :: rest =>
    if n = key.length ∧ rest.take key.length = key then some (rest.drop key.length)
    else none
  | [] => none

/-- `serialise.ToBytesMany` with an optional AES-GCM encryption option (the
module always appends the serialisation approach and, where used, the
encryption option; the net effect on the codec is captured by `key`). -/
def toBytesManyEnc (key : Option (List Nat)) (vs : List SValue) : List Nat :=
  match key with
  | none => encodeMany vs
  | some k => aesEnc k (encodeMany vs)

/-- `serialise.FromBytesMany` with an optional AES-GCM decryption option. -/
def fromBytesManyEnc (key : Option (List Nat)) (data : List Nat) : Option (List SValue) :=
  match key with
  | none => decodeMany data
  | some k => (aesDec k data).bind decodeMany

-- Codec round-trip lemmas ----------------------------------------------------

theorem decStr_encStr (s : GoStr) (r : List Nat) :
    decStr (encStr s ++ r) = some (s, r) := by
  simp [decStr, encStr, List.take_left, List.drop_left]

theorem decInt_encInt (n : Int) (r : List Nat) :
    decInt (encInt n ++ r) = some (n, r) := by
  by_cases h : n < 0
  · simp only [encInt, if_pos h, List.cons_append, List.nil_append, decInt]
    have hn : -(n.natAbs : Int) = n := by
      omega
    rw [hn]
  · simp only [encInt, if_neg h, List.cons_append, List.nil_append, decInt]
    have hn : (n.natAbs : Int) = n := by
      omega
    rw [hn]

theorem decStrs_encStrs (ss : List GoStr) (r : List Nat) :
    decStrs ss.length ((ss.map encStr).flatten ++ r) = some (ss, r) := by
  induction ss generalizing r with
  | nil => simp [decStrs]
  | cons s tl ih =>
    simp only [List.map_cons, List.flatten_cons, List.length_cons, List.append_assoc]
    rw [decStrs, decStr_encStr]
    simp [ih]

theorem decodeOne_encodeOne (v : SValue) (r : List Nat) :
    decodeOne (encodeOne v ++ r) = some (v, r) := by
  cases v with
  | vBool b => cases b <;> simp [encodeOne, decodeOne]
  | vInt8 n => simp [encodeOne, decodeOne, decInt_encInt]
  | vInt64 n => simp [encodeOne, decodeOne, decInt_encInt]
  | vString s => simp [encodeOne, decodeOne, decStr_encStr]
  | vBytes b => simp [encodeOne, decodeOne, decStr_encStr]
  | vStrings ss => simp [encodeOne, decodeOne, decStrs_encStrs]
  | vOther tag p => simp [encodeOne, decodeOne, decStr_encStr]

theorem decodeList_encodeList (vs : List SValue) (r : List Nat) :
    decodeList vs.length ((vs.map encodeOne).flatten ++ r) = some (vs, r) := by
  induction vs generalizing r with
  | nil => simp [decodeList]
  | cons v tl ih =>
    simp only [List.map_cons, List.flatten_cons, List.length_cons, List.append_assoc]
    rw [decodeList, decodeOne_encodeOne]
    simp [ih]

theorem decodeMany_encodeMany (vs : List SValue) :
    decodeMany (encodeMany vs) = some vs := by
  have h := decodeList_encodeList vs []
  simp only [List.append_nil] at h
  simp [decodeMany, encodeMany, h]

theorem aesDec_aesEnc (k p : List Nat) : aesDec k (aesEnc k p) = some p := by
  simp [aesDec, aesEnc, List.take_left, List.drop_left]

theorem aesDec_aesEnc_ne (k k' p : List Nat) (h : k ≠ k') :
    aesDec k' (aesEnc k p) = none := by
  simp only [aesDec, aesEnc]
  rcases eq_or_ne k.length k'.length with hl | hl
  · have ht : (k ++ p).take k'.length = k := by
      rw [← hl, List.take_left]
    have : ¬(k.length = k'.length ∧ (k ++ p).take k'.length = k') := by
      rintro ⟨-, hk⟩
      exact h (ht ▸ hk)
    simp [this]
  · simp [hl]

theorem fromBytesManyEnc_toBytesManyEnc (key : Option (List Nat)) (vs : List SValue) :
    fromBytesManyEnc key (toBytesManyEnc key vs) = some vs := by
  cases key with
  | none => simp [fromBytesManyEnc, toBytesManyEnc, decodeMany_encodeMany]
  | some k =>
    simp [fromBytesManyEnc, toBytesManyEnc, aesDec_aesEnc, decodeMany_encodeMany]

-- Errors ---------------------------------------------------------------------

/-- The module's user-visible error values (`errors.New` sentinels), plus
`serialiseError` for errors surfaced verbatim from the external codec,
`gcmAuthError` for an AES-GCM decryption failure propagated from the cipher,
`finderError` for errors returned by a caller-supplied finder,
`panicRecovered` for a runtime panic trapped by the deferred `recover` in
`packItem` / `Unpack`, and `outOfFuel` for the model's recursion bound (never
reached on the inputs used by any theorem below). -/
inductive PErr where
  | packNoAttributes
  | packNoParams
  | paramsNoProvider
  | paramsNoIDCreator
  | paramsNoIDSerialiser
  | paramsNoApproach
  | unsupportedPackVersion
  | maxSizeTooSmall
  | unableToCreateUniqueName
  | keyMustNotBeNil
  | unpackNoData
  | unpackNoParams
  | dataLoaderIsNil
  | idRetrieverIsNil
  | providerIsNil
  | unpackInvalidData
  | invalidDataToUnpack
  | invalidDataToDeserialiseAttrMap
  | invalidDataToDeserialiseElements
  | keyProviderDecryptError
  | keyDeserialisationError
  | serialiseError
  | gcmAuthError
  | finderError (code : Nat)
  | panicRecovered
  | outOfFuel
deriving DecidableEq, Repr

deriving instance DecidableEq for Except

-- Association-list model of Go maps -------------------------------------------

/-- Go map assignment `m[k] = v`: overwrite the existing entry, else append. -/
def upsert [DecidableEq α] (l : List (α × β)) (k : α) (v : β) : List (α × β) :=
  if l.any (fun p => p.1 = k) then
    l.map (fun p => if p.1 = k then (k, v) else p)
  else l ++ [(k, v)]

/-- Go map read `m[k]`. -/
def lookupA [DecidableEq α] (l : List (α × β)) (k : α) : Option β :=
  (l.find? (fun p => p.1 = k)).map (fun p => p.2)

-- Envelope key provider (item_key.go) -----------------------------------------

/-- `evKeyProvider`: the provider's id, its AES-256-GCM master key (the
`enc` / `dec` closures are derived from it), and the finder used to locate
other providers by id.  (`EnvelopeKeyProvider` is an interface; this models
the one implementation, `evKeyProvider`, that the repository constructs.) -/
inductive Provider where
  | mk (id : GoStr) (key : List Nat) (finder : GoStr → Except PErr Provider)

def Provider.id : Provider → GoStr
  | .mk i _ _ => i

def Provider.key : Provider → List Nat
  | .mk _ k _ => k

def Provider.finder : Provider → (GoStr → Except PErr Provider)
  | .mk _ _ f => f

/-- `evKeyProvider.New`: mint a fresh DEK (the 32 random bytes are supplied as
`newKey`, modelling the `crypto/rand` draw), wrap it under the master key and
codec-V1-encode `[string(id), encryptedKey]`.  Returns `(wrapped, raw)`. -/
def Provider.New (p : Provider) (newKey : List Nat) : List Nat × List Nat :=
  (encodeMany [.vString p.id, .vBytes (aesEnc p.key newKey)], newKey)

/-- `evKeyProvider.Decrypt`: decode `[id, ciphertext]`; decrypt locally when
the id matches, otherwise delegate to the provider the finder returns.  `fuel`
bounds the delegation depth (the Go recursion terminates whenever the finder
chain does; every theorem below uses enough fuel). -/
def Provider.Decrypt : Nat → Provider → List Nat → Except PErr (List Nat)
  | 0, _, _ => .error .outOfFuel
  | fuel + 1, p, encryptedKey =>
    match decodeMany encryptedKey with
    | none => .error .serialiseError
    | some vs =>
      match vs with
      | [v0, v1] =>
        match v0 with
        | .vString i =>
          if i = p.id then
            match v1 with
            | .vBytes kb =>
              match aesDec p.key kb with
              | some k => .ok k
              | none => .error .gcmAuthError
            | _ => .error .keyDeserialisationError
          else
            match p.finder i with
            | .ok other => Provider.Decrypt fuel other encryptedKey
            | .error e => .error e
        | _ => .error .keyDeserialisationError
      | _ => .error .keyDeserialisationError

/-- Decrypting a wrapped DEK with the provider that minted it recovers the raw
DEK (the local branch of `Decrypt`). -/
theorem Provider.decrypt_new_self (p : Provider) (raw : List Nat) (fuel : Nat) :
    Provider.Decrypt (fuel + 1) p (p.New raw).1 = .ok raw := by
  simp [Provider.New, Provider.Decrypt, decodeMany_encodeMany, aesDec_aesEnc]

-- C5: cross-provider decryption ----------------------------------------------

/-- Master keys used by the C5 counterexample: two distinct 32-byte AES keys. -/
def cxKey1 : List Nat := List.replicate 32 1

def cxKey2 : List Nat := List.replicate 32 2

/-- Provider A of the C5 counterexample. -/
def cxA : Provider := .mk [120] cxKey1 (fun _ => .error (.finderError 0))

/-- Provider B of the C5 counterexample: it shares A's id `"x"` but holds a
different master key, and its finder resolves that id to A. -/
def cxB : Provider := .mk [120] cxKey2 (fun i => if i = [120] then .ok cxA else .error (.finderError 0))

/-- A raw DEK for the C5 counterexample. -/
def cxRaw : List Nat := List.replicate 32 7

/-- C5 counterexample: B's finder resolves A's id to A, yet `B.Decrypt` of the
pair minted by `A.New` does not return the raw DEK — because A and B share the
same id, `Decrypt` takes the local branch and AES-GCM authentication fails
under B's different master key.  (Fuel 3 is ample: the local branch consumes
one step.) -/
theorem C5_counterexample :
    cxB.finder cxA.id = .ok cxA ∧
      Provider.Decrypt 3 cxB (cxA.New cxRaw).1 = .error .gcmAuthError := by
  exact ⟨rfl, by rfl⟩

/-- C5 (amended): if provider B's finder resolves provider A's id to provider A
and additionally B's id differs from A's (or B holds A's master key), then for
every `(wrapped, raw)` pair returned by `A.New`, `B.Decrypt wrapped` succeeds
and returns exactly `raw`.  Fuel `fuel + 2` covers the one delegation hop. -/
theorem C5_cross_provider_decrypt (a b : Provider) (raw : List Nat) (fuel : Nat)
    (hfind : b.finder a.id = .ok a)
    (hid : a.id ≠ b.id ∨ b.key = a.key) :
    Provider.Decrypt (fuel + 2) b (a.New raw).1 = .ok raw := by
  show Provider.Decrypt (fuel + 1 + 1) b (a.New raw).1 = .ok raw
  by_cases hc : a.id = b.id
  · have hk : b.key = a.key := by
      rcases hid with h | h
      · exact absurd hc h
      · exact h
    simp [Provider.New, Provider.Decrypt, decodeMany_encodeMany, hc, hk, aesDec_aesEnc]
  · simp [Provider.New, Provider.Decrypt, decodeMany_encodeMany, hc, hfind, aesDec_aesEnc]

/-- Witness for C5: two providers with distinct ids `"y"`, `"z"`; B's finder
resolves A's id to A, and decryption of A's freshly minted wrapped DEK by B
yields the raw DEK. -/
theorem C5_cross_provider_decrypt_witness :
    ((Provider.mk [122] cxKey2 (fun i => if i = [121] then .ok (Provider.mk [121] cxKey1 (fun _ => .error (.finderError 0))) else .error (.finderError 0))).finder
        (Provider.mk [121] cxKey1 (fun _ => .error (.finderError 0))).id =
      .ok (Provider.mk [121] cxKey1 (fun _ => .error (.finderError 0)))) ∧
    Provider.Decrypt 3
        (Provider.mk [122] cxKey2 (fun i => if i = [121] then .ok (Provider.mk [121] cxKey1 (fun _ => .error (.finderError 0))) else .error (.finderError 0)))
        ((Provider.mk [121] cxKey1 (fun _ => .error (.finderError 0))).New cxRaw).1 =
      .ok cxRaw := by
  refine ⟨rfl, ?_⟩
  exact C5_cross_provider_decrypt
    (Provider.mk [121] cxKey1 (fun _ => .error (.finderError 0)))
    (Provider.mk [122] cxKey2 (fun i => if i = [121] then .ok (Provider.mk [121] cxKey1 (fun _ => .error (.finderError 0))) else .error (.finderError 0)))
    cxRaw 1 rfl (Or.inl (by decide))

-- Id traits (id.go) -----------------------------------------------------------

/-- `IDSerialiser[T]`: a named serialiser/deserialiser for the key type. -/
structure IDSerialiser (T : Type) where
  name : GoStr
  pack : T → Except PErr (List Nat)
  unpack : List Nat → Except PErr T

-- Items, params, options (pack.go) --------------------------------------------

/-- The attribute-value families the V1 engine distinguishes in `createMaps`:
a plain codec value (the `default` branch), a single `T`, a `*T`, a `[]T`
and a `[]*T` (pointers are modelled by the value they point at). -/
inductive GoVal (T : Type) where
  | plain (v : SValue)
  | key (t : T)
  | keyRef (t : T)
  | keys (ts : List T)
  | keyRefs (ts : List T)
deriving DecidableEq

/-- `Item[T]`: a key plus named attribute values.  The Go `map[string]any` is
modelled as an association list whose order is the (arbitrary) map iteration
order; theorems quantify over it. -/
structure Item (T : Type) where
  key : T
  attributes : List (GoStr × GoVal T)

/-- `PackParams[T]`: nilable collaborator fields, as validated by
`PackParams.validate`.  The `Approach` collaborator is identified by its
`Name()`; its codec behaviour is the modelled codec. -/
structure PackParams (T : Type) where
  provider : Option Provider
  creator : Option (Nat → T)
  packer : Option (IDSerialiser T)
  approach : Option GoStr

/-- `PackParams.validate`, additionally returning the non-nil fields. -/
def PackParams.validateX (p : PackParams T) :
    Except PErr (Provider × (Nat → T) × IDSerialiser T × GoStr) :=
  match p.provider with
  | none => .error .paramsNoProvider
  | some prov =>
    match p.creator with
    | none => .error .paramsNoIDCreator
    | some cr =>
      match p.packer with
      | none => .error .paramsNoIDSerialiser
      | some pk =>
        match p.approach with
        | none => .error .paramsNoApproach
        | some ap => .ok (prov, cr, pk, ap)

/-- `Options` (zero value = unset; `packItem` fills in defaults).  The
`serialiseOptions` field is not modelled separately: the engine always appends
the chosen approach and the DEK encryption option last, so the codec's net
behaviour is captured by the encryption-key argument of `toBytesManyEnc`. -/
structure Options where
  packingVersion : Int := 0
  maxAttrValueSize : Nat := 0
  maxSize : Nat := 0
  attrNameSize : Nat := 0
  attrNameRetries : Nat := 0
deriving DecidableEq

/-- `WithMaximumKBSize(sizeInKB uint16)`. -/
def WithMaximumKBSize (sizeInKB : Nat) : Options → Options :=
  fun o => { o with maxSize := sizeInKB * 1024 }

/-- `WithAttributeValueMaximumKBSize(sizeInKB uint16)`. -/
def WithAttributeValueMaximumKBSize (sizeInKB : Nat) : Options → Options :=
  fun o => { o with maxAttrValueSize := sizeInKB * 1024 }

/-- `WithAttributeNameSize(size uint8)` (Go panics at option-construction time
for `size < 2`, before `Pack` is entered; only the legal use is modelled). -/
def WithAttributeNameSize (size : Nat) : Options → Options :=
  fun o => { o with attrNameSize := size }

/-- `WithAttributeNameRetries(retries uint8)`. -/
def WithAttributeNameRetries (retries : Nat) : Options → Options :=
  fun o => { o with attrNameRetries := retries }

/-- `WithPackingVersion(version PackVersion)` (Go panics at option-construction
time for versions outside `[UnknownVersion, OutOfRange)`). -/
def WithPackingVersion (version : Int) : Options → Options :=
  fun o => { o with packingVersion := version }

/-- `minSize = 10 * 1024`. -/
def minSize : Nat := 10 * 1024

/-- Apply the caller's option closures to the zero `Options`. -/
def foldOpts (opts : List (Options → Options)) : Options :=
  opts.foldl (fun o f => f o) {}

/-- The defaults `packItem` applies before the `maxSize` validity check:
packing version, attribute-name size, retries, `maxSize`. -/
def applyDefaults1 (o : Options) : Options :=
  let o1 := if o.packingVersion = 0 then { o with packingVersion := 1 } else o
  let o2 := if o1.attrNameSize < 2 then { o1 with attrNameSize := 6 } else o1
  let o3 := if o2.attrNameRetries = 0 then { o2 with attrNameRetries := 1 } else o2
  if o3.maxSize = 0 then { o3 with maxSize := 350 * 1024 } else o3

/-- The defaults `packItem` applies after the `maxSize` check: default
`maxAttrValueSize`, then clamp it to `maxSize`. -/
def applyDefaults2 (o : Options) : Options :=
  let o1 := if o.maxAttrValueSize = 0 then { o with maxAttrValueSize := 100 * 1024 } else o
  if o1.maxSize < o1.maxAttrValueSize then { o1 with maxAttrValueSize := o1.maxSize } else o1

/-- The fully resolved options of a `packItem` call (defaults and clamping). -/
def resolveOptions (opts : List (Options → Options)) : Options :=
  applyDefaults2 (applyDefaults1 (foldOpts opts))

/-- The randomness a single `Pack` call draws from `crypto/rand`: the fresh
32 DEK bytes, and the stream of random character indices consumed by
`uniqueAttributeName` (each draw is `c.Int(c.Reader, 62)`; the model reduces
an arbitrary stream value into range with `% 62`). -/
structure PackRandom where
  dek : List Nat
  chars : Nat → Nat

-- V1 packing engine (item_packing_v1.go) --------------------------------------

/-- The readable attribute-name alphabet
`"ABCDEFGHIJKLMNOPQRSTUVWXYZabcdefghijklmnopqrstuvwxyz0123456789"`. -/
def eles : List Nat :=
  (List.range 26).map (fun i => i + 65) ++
    (List.range 26).map (fun i => i + 97) ++
    (List.range 10).map (fun i => i + 48)

/-- The candidate name built by attempt number `slot` of
`uniqueAttributeName`: `attrNameSize` random characters from `eles`. -/
def nameAt (chars : Nat → Nat) (size slot : Nat) : GoStr :=
  (List.range size).map fun j => eles.getD (chars (slot * size + j) % eles.length) 0

/-- `uniqueAttributeName`: draw up to `retries` candidate names, rejecting any
already in `existing`; return the accepted name and the next stream slot, or
`ErrUnableToCreateUniqueName` when the retries are exhausted.  (The caller
records the accepted name in `existing`, matching the Go map insertion.) -/
def uniqueAttributeName (chars : Nat → Nat) (size : Nat) :
    Nat → Nat → List GoStr → Except PErr (GoStr × Nat)
  | 0, _, _ => .error .unableToCreateUniqueName
  | r + 1, slot, existing =>
    let s := nameAt chars size slot
    if s ∈ existing then uniqueAttributeName chars size r (slot + 1) existing
    else .ok (s, slot + 1)

/-- The chunking loop of `createMaps`: while `len(b) > maxAttrValueSize`, store
`b[0:maxAttrValueSize]` under a fresh name and advance with `b = b[maxSize:]`
(the slice panics — `panicRecovered` — when `maxSize > len(b)`); finally store
the remaining bytes under one more fresh name.  `fuel` bounds the iteration
count (`b.length` iterations always suffice when `maxSize ≥ 1`). -/
def chunkSplit (chars : Nat → Nat) (size retries maxAttr maxSize : Nat)
    (fuel : Nat) (b : List Nat) (slot : Nat) (ex accN : List GoStr)
    (accV : List (GoStr × List Nat)) :
    Except PErr (List GoStr × List (GoStr × List Nat) × Nat × List GoStr) :=
  if maxAttr < b.length then
    match fuel with
    | 0 => .error .outOfFuel
    | f + 1 =>
      match uniqueAttributeName chars size retries slot ex with
      | .error e => .error e
      | .ok (an, slot') =>
        if b.length < maxSize then .error .panicRecovered
        else
          chunkSplit chars size retries maxAttr maxSize f (b.drop maxSize) slot'
            (ex ++ [an]) (accN ++ [an]) (accV ++ [(an, b.take maxAttr)])
  else
    match uniqueAttributeName chars size retries slot ex with
    | .error e => .error e
    | .ok (an, slot') => .ok (accN ++ [an], accV ++ [(an, b)], slot', ex ++ [an])
termination_by structural fuel

/-- Pack a list of keys in order, stopping at the first error (the shape of
every `for … { b, err := Packer.Pack(…); if err != nil { return } }` loop). -/
def packAll (packer : IDSerialiser T) : List T → Except PErr (List (List Nat))
  | [] => .ok []
  | t :: rest =>
    match packer.pack t with
    | .error e => .error e
    | .ok b =>
      match packAll packer rest with
      | .error e => .error e
      | .ok bs => .ok (b :: bs)

/-- The per-attribute tuple `createMaps` serialises (before encryption):
`[v]` for a plain value, `[true, pack(v)]` for `T`, `[false, pack(*v)]` for
`*T`, `[true, int64(len), pack(v[0]), …]` for `[]T`; for `[]*T` the loop bound
is `i <= len(vv)`, so after packing every element the access `vv[len(vv)]`
panics (recovered by the deferred handler in `packItem`). -/
def encodeAttrTuple (packer : IDSerialiser T) : GoVal T → Except PErr (List SValue)
  | .plain v => .ok [v]
  | .key t =>
    match packer.pack t with
    | .error e => .error e
    | .ok b => .ok [.vBool true, .vBytes b]
  | .keyRef t =>
    match packer.pack t with
    | .error e => .error e
    | .ok b => .ok [.vBool false, .vBytes b]
  | .keys ts =>
    match packAll packer ts with
    | .error e => .error e
    | .ok bs => .ok ([.vBool true, .vInt64 (ts.length : Int)] ++ bs.map SValue.vBytes)
  | .keyRefs ts =>
    match packAll packer ts with
    | .error e => .error e
    | .ok _ => .error .panicRecovered

/-- `createMaps`: iterate the attribute map, serialise each value with the DEK
applied, chunk it, and record the chunk names in `attrMap` and the chunks in
`valMap`.  The iterated attribute list is handed back unchanged as the second
component, modelling the map reference through which the function could have
written (it performs no writes). -/
def createMapsAux (packer : IDSerialiser T) (encKey : Option (List Nat))
    (chars : Nat → Nat) (size retries maxAttr maxSize : Nat) :
    List (GoStr × GoVal T) → Nat → List GoStr →
    List (GoStr × List GoStr) → List (GoStr × List Nat) →
    Except PErr (List (GoStr × List GoStr) × List (GoStr × List Nat) × Nat × List GoStr)
      × List (GoStr × GoVal T)
  | [], slot, ex, accA, accV => (.ok (accA, accV, slot, ex), [])
  | (k, v) :: rest, slot, ex, accA, accV =>
    match encodeAttrTuple packer v with
    | .error e => (.error e, (k, v) :: rest)
    | .ok tup =>
      let b := toBytesManyEnc encKey tup
      match chunkSplit chars size retries maxAttr maxSize (b.length + 1) b slot ex [] accV with
      | .error e => (.error e, (k, v) :: rest)
      | .ok (names, accV', slot', ex') =>
        let (r, l) := createMapsAux packer encKey chars size retries maxAttr maxSize
          rest slot' ex' (accA ++ [(k, names)]) accV'
        (r, (k, v) :: l)

/-- The weight of a `(row_name, bytes)` pair: `len(name) + len(bytes)`. -/
def pairWeight (p : GoStr × List Nat) : Nat := p.1.length + p.2.length

/-- The first loop of `createElements`: subtract each pair's weight from the
running budget and collect, in iteration order, the pairs encountered after
the budget went negative. -/
def splitRest : Int → List (GoStr × List Nat) → List (GoStr × List Nat)
  | _, [] => []
  | remaining, p :: rest =>
    let r' := remaining - (pairWeight p : Int)
    if r' < 0 then p :: splitRest r' rest else splitRest r' rest

/-- Insert a pair into a list sorted ascending by chunk length. -/
def insertLe (p : GoStr × List Nat) : List (GoStr × List Nat) → List (GoStr × List Nat)
  | [] => [p]
  | q :: rest =>
    if p.2.length < q.2.length then p :: q :: rest else q :: insertLe p rest

/-- Sort ascending by chunk length (models `sort.Sort(byteSortSet)`, whose
comparator is `len(b[i].v) < len(b[j].v)`; `sort.Sort` is unstable, so any
order consistent with the comparator is admissible — the model fixes this
one). -/
def sortByLen : List (GoStr × List Nat) → List (GoStr × List Nat)
  | [] => []
  | p :: rest => insertLe p (sortByLen rest)

/-- A bin of the first-fit packing in `createElements`. -/
structure PackBin where
  size : Nat
  content : List (GoStr × List Nat)

/-- Place one pair into the first bin it fits (strictly under `maxSize`),
else open a new bin at the end. -/
def firstFitInsert (maxSize : Nat) (p : GoStr × List Nat) :
    List PackBin → List PackBin
  | [] => [⟨pairWeight p, [p]⟩]
  | b :: bs =>
    if b.size + pairWeight p < maxSize then
      ⟨b.size + pairWeight p, b.content ++ [p]⟩ :: bs
    else b :: firstFitInsert maxSize p bs

/-- `createElements`: the primary row keyed by `item.Key` receives the whole
`vals` map; pairs past the `maxSize − minSize` budget are additionally
bin-packed (sorted ascending by chunk length, first-fit) into overflow rows
keyed by freshly minted ids.  `cctr` is the position in the creator's id
stream.  (Go computes `int64(maxSize − minSize)` on `uint64`s; the `Int`
subtraction here agrees because `packItem` guarantees `maxSize ≥ minSize`.
`sort.Sort` is an unstable sort; the model fixes the stable merge sort, one of
its admissible outcomes.) -/
def createElements [DecidableEq T] (creator : Nat → T) (cctr : Nat)
    (maxSize : Nat) (key : T) (vals : List (GoStr × List Nat)) :
    List T × List (T × List (GoStr × List Nat)) × Nat :=
  let rest := splitRest ((maxSize : Int) - (minSize : Int)) vals
  if rest.isEmpty then ([key], [(key, vals)], cctr)
  else
    let sorted := sortByLen rest
    let bins := sorted.foldl (fun acc p => firstFitInsert maxSize p acc) []
    bins.foldl
      (fun s bin =>
        match s with
        | (ks, att, c) =>
          let t := creator c
          (ks ++ [t],
            upsert att t (bin.content.foldl (fun m p => upsert m p.1 p.2) []),
            c + 1))
      ([key], [(key, vals)], cctr)

/-- `packAttrMap`: encode each attribute's `original_name :: row_names` as a
string slice (no encryption at this layer). -/
def packAttrMap (attrMap : List (GoStr × List GoStr)) : List Nat :=
  encodeMany (attrMap.map fun p => .vStrings (p.1 :: p.2))

/-- `packElementsSlice`: pack each element key and encode the byte slices
(no encryption at this layer). -/
def packElementsSlice (packer : IDSerialiser T) (elements : List T) :
    Except PErr (List Nat) :=
  match packAll packer elements with
  | .error e => .error e
  | .ok bs => .ok (encodeMany (bs.map SValue.vBytes))

/-- The row map `Pack` returns for the durable store. -/
abbrev RowMap (T : Type) := List (T × List (GoStr × List Nat))

/-- `itemPackingDetailsV1.pack`: build the maps, distribute them into rows,
encrypt `[packedKey, attrMapBytes, elementsBytes]` under the DEK, and frame it
with codec V1 as `[wrappedDEK, packerName, approachName, inner]`.  The second
component threads the item reference back (no writes occur). -/
def packDetailsV1 [DecidableEq T] (creator : Nat → T) (packer : IDSerialiser T)
    (approachName : GoStr) (o : Options) (chars : Nat → Nat) (item : Item T)
    (encryptedKey encKey : List Nat) :
    Except PErr (List Nat × RowMap T) × Item T :=
  match createMapsAux packer (some encKey) chars o.attrNameSize o.attrNameRetries
      o.maxAttrValueSize o.maxSize item.attributes 0 [] [] [] with
  | (r, attrsIter) =>
    let item' : Item T := ⟨item.key, attrsIter⟩
    match r with
    | .error e => (.error e, item')
    | .ok (attrMap, valMap, _, _) =>
      match createElements creator 0 o.maxSize item.key valMap with
      | (elements, output, _) =>
        match packer.pack item.key with
        | .error e => (.error e, item')
        | .ok bKey =>
          let bAttrMap := packAttrMap attrMap
          match packElementsSlice packer elements with
          | .error e => (.error e, item')
          | .ok bElements =>
            let b := toBytesManyEnc (some encKey)
              [.vBytes bKey, .vBytes bAttrMap, .vBytes bElements]
            let fin := encodeMany
              [.vBytes encryptedKey, .vString packer.name, .vString approachName, .vBytes b]
            (.ok (fin, output), item')

/-- `packItem`: validate params, resolve options (erroring with
`MaxSizeTooSmall` before clamping), mint the DEK, dispatch on the packing
version and prefix the result with `[int8(version), bytes]` in codec V1.
The second component threads the caller's item back. -/
def packItem [DecidableEq T] (rnd : PackRandom) (item : Item T)
    (params : Option (PackParams T)) (opts : List (Options → Options)) :
    Except PErr (List Nat × RowMap T) × Item T :=
  match params with
  | none => (.error .packNoParams, item)
  | some ps =>
    match ps.validateX with
    | .error e => (.error e, item)
    | .ok (prov, creator, packer, approachName) =>
      if (applyDefaults1 (foldOpts opts)).maxSize < minSize then
        (.error .maxSizeTooSmall, item)
      else
        match prov.New rnd.dek with
        | (encryptedKey, encKey) =>
          if (resolveOptions opts).packingVersion = 1 then
            match packDetailsV1 creator packer approachName (resolveOptions opts)
                rnd.chars item encryptedKey encKey with
            | (.error e, item') => (.error e, item')
            | (.ok (d, out), item') =>
              (.ok (encodeMany [.vInt8 (resolveOptions opts).packingVersion, .vBytes d], out),
                item')
          else (.error .unsupportedPackVersion, item)

/-- `Pack`: reject a nil item or an empty attribute map, then `packItem`.
The second component threads the caller's item back. -/
def Pack [DecidableEq T] (rnd : PackRandom) (item : Option (Item T))
    (params : Option (PackParams T)) (opts : List (Options → Options)) :
    Except PErr (List Nat × RowMap T) × Option (Item T) :=
  match item with
  | none => (.error .packNoAttributes, none)
  | some it =>
    if it.attributes.length = 0 then (.error .packNoAttributes, some it)
    else
      match packItem rnd it params opts with
      | (r, it') => (r, some it')

/-- `PackKey`: reject a nil key, then pack a fresh item holding the
dereferenced key and no attributes, returning the envelope bytes only. -/
def PackKey [DecidableEq T] (rnd : PackRandom) (key : Option T)
    (params : Option (PackParams T)) (opts : List (Options → Options)) :
    Except PErr (List Nat) :=
  match key with
  | none => .error .keyMustNotBeNil
  | some k =>
    match (packItem rnd ⟨k, []⟩ params opts).1 with
    | .error e => .error e
    | .ok (info, _) => .ok info

-- V1 unpacking engine ----------------------------------------------------------

/-- `EncryptedItem[T]`: the lazily decryptable result of `Unpack`. -/
structure EncryptedItem (T : Type) where
  key : T
  attributes : List (GoStr × List Nat)
  encryptedKey : List Nat
  approach : GoStr
  packer : IDSerialiser T

/-- The loop of `unpackAttrMap`: each element must be a string slice of length
at least 2; map the head name to the tail row names. -/
def unpackAttrMapLoop : List SValue → List (GoStr × List GoStr) →
    Except PErr (List (GoStr × List GoStr))
  | [], acc => .ok acc
  | v :: rest, acc =>
    match v with
    | .vStrings (s0 :: s1 :: tl) => unpackAttrMapLoop rest (upsert acc s0 (s1 :: tl))
    | _ => .error .invalidDataToDeserialiseAttrMap

/-- `itemPackingDetailsV1.unpackAttrMap`. -/
def unpackAttrMap (data : List Nat) : Except PErr (List (GoStr × List GoStr)) :=
  match decodeMany data with
  | none => .error .serialiseError
  | some vs => unpackAttrMapLoop vs []

/-- The loop of `unpackElementsSlice`: each element must be a byte slice; the
packer's `Unpack` errors are propagated verbatim. -/
def unpackElementsLoop (packer : IDSerialiser T) : List SValue → List T →
    Except PErr (List T)
  | [], acc => .ok acc
  | v :: rest, acc =>
    match v with
    | .vBytes b =>
      match packer.unpack b with
      | .error e => .error e
      | .ok t => unpackElementsLoop packer rest (acc ++ [t])
    | _ => .error .invalidDataToDeserialiseElements

/-- `itemPackingDetailsV1.unpackElementsSlice`. -/
def unpackElementsSlice (packer : IDSerialiser T) (data : List Nat) :
    Except PErr (List T) :=
  match decodeMany data with
  | none => .error .serialiseError
  | some vs => unpackElementsLoop packer vs []

/-- Concatenate an attribute's chunks in `attrMap` order from the loaded row
data; a missing chunk is `ErrInvalidDataToUnpack`. -/
def concatChunks (md : List (GoStr × List Nat)) : List GoStr → Except PErr (List Nat)
  | [] => .ok []
  | a :: rest =>
    match lookupA md a with
    | none => .error .invalidDataToUnpack
    | some part =>
      match concatChunks md rest with
      | .error e => .error e
      | .ok tl => .ok (part ++ tl)

/-- Rebuild the per-attribute ciphertexts from the loaded rows. -/
def buildDataMap (md : List (GoStr × List Nat)) :
    List (GoStr × List GoStr) → List (GoStr × List Nat) →
    Except PErr (List (GoStr × List Nat))
  | [], acc => .ok acc
  | (k, names) :: rest, acc =>
    match concatChunks md names with
    | .error e => .error e
    | .ok b => buildDataMap md rest (upsert acc k b)

/-- `itemPackingDetailsV1.unpack`: codec-V1-decode the outer frame, resolve the
packer (via the id retriever) and the approach (via the codec registry,
modelled from the spec as resolving every name this module writes), unwrap the
DEK, decrypt and decode the inner triple, decode the key, attr map and element
list, load the rows and reassemble each attribute's ciphertext. -/
def unpackDetailsV1 [DecidableEq T] (fuel : Nat) (data : List Nat)
    (provider : Provider)
    (loader : List T → Except PErr (List (GoStr × List Nat)))
    (idRetriever : GoStr → Except PErr (IDSerialiser T)) :
    Except PErr (EncryptedItem T) :=
  match decodeMany data with
  | none => .error .serialiseError
  | some fin =>
    match fin with
    | [f0, f1, f2, f3] =>
      match f0 with
      | .vBytes encryptedKey =>
        match f1 with
        | .vString packerName =>
          match idRetriever packerName with
          | .error e => .error e
          | .ok packer =>
            match f2 with
            | .vString approachName =>
              match f3 with
              | .vBytes b =>
                match Provider.Decrypt fuel provider encryptedKey with
                | .error e => .error e
                | .ok encKey =>
                  match fromBytesManyEnc (some encKey) b with
                  | none => .error .serialiseError
                  | some packData =>
                    match packData with
                    | [p0, p1, p2] =>
                      match p0 with
                      | .vBytes bKey =>
                        match packer.unpack bKey with
                        | .error e => .error e
                        | .ok key =>
                          match p1 with
                          | .vBytes bAttrMap =>
                            match unpackAttrMap bAttrMap with
                            | .error e => .error e
                            | .ok attrMap =>
                              match p2 with
                              | .vBytes bElements =>
                                match unpackElementsSlice packer bElements with
                                | .error e => .error e
                                | .ok elements =>
                                  match loader elements with
                                  | .error e => .error e
                                  | .ok md =>
                                    match buildDataMap md attrMap [] with
                                    | .error e => .error e
                                    | .ok dataMap =>
                                      .ok ⟨key, dataMap, encryptedKey, approachName, packer⟩
                              | _ => .error .invalidDataToUnpack
                          | _ => .error .invalidDataToUnpack
                      | _ => .error .invalidDataToUnpack
                    | _ => .error .invalidDataToUnpack
              | _ => .error .invalidDataToUnpack
            | _ => .error .invalidDataToUnpack
        | _ => .error .invalidDataToUnpack
      | _ => .error .invalidDataToUnpack
    | _ => .error .invalidDataToUnpack

/-- `UnpackParams[T]` with its nilable fields. -/
structure UnpackParams (T : Type) where
  dataLoader : Option (List T → Except PErr (List (GoStr × List Nat)))
  idRetriever : Option (GoStr → Except PErr (IDSerialiser T))
  provider : Option Provider

/-- `UnpackParams.validate`, additionally returning the non-nil fields. -/
def UnpackParams.validateX (u : UnpackParams T) :
    Except PErr ((List T → Except PErr (List (GoStr × List Nat)))
      × (GoStr → Except PErr (IDSerialiser T)) × Provider) :=
  match u.dataLoader with
  | none => .error .dataLoaderIsNil
  | some dl =>
    match u.idRetriever with
    | none => .error .idRetrieverIsNil
    | some ir =>
      match u.provider with
      | none => .error .providerIsNil
      | some p => .ok (dl, ir, p)

/-- `Unpack`: validate, codec-V1-decode `[int8 version, bytes]`, and dispatch
on the version (only `V1 = 1` is supported). -/
def Unpack [DecidableEq T] (fuel : Nat) (data : List Nat)
    (params : Option (UnpackParams T)) : Except PErr (EncryptedItem T) :=
  if data.length = 0 then .error .unpackNoData
  else
    match params with
    | none => .error .unpackNoParams
    | some ps =>
      match ps.validateX with
      | .error e => .error e
      | .ok (loader, retr, prov) =>
        match decodeMany data with
        | none => .error .serialiseError
        | some vs =>
          match vs with
          | [v0, v1] =>
            match v0 with
            | .vInt8 pv =>
              match v1 with
              | .vBytes b =>
                if pv = 1 then unpackDetailsV1 fuel b prov loader retr
                else .error .unsupportedPackVersion
              | _ => .error .unpackInvalidData
            | _ => .error .unpackInvalidData
          | _ => .error .unpackInvalidData

-- EncryptedItem.GetValues (encrypted_item.go) ----------------------------------

/-- The decrypted attribute values `GetValues` returns: a plain codec value, a
`T`, a `*T`, a `[]T` or a `[]*T` (pointers modelled by their pointee). -/
inductive RVal (T : Type) where
  | plain (v : SValue)
  | key (t : T)
  | keyRef (t : T)
  | keys (ts : List T)
  | keyRefs (ts : List T)
deriving DecidableEq

/-- The sequence loop of the arity-`≥ 3` branch: each entry must be a byte
slice and unpack cleanly, any failure being `ErrInvalidDataToUnpack`. -/
def unpackSeq (packer : IDSerialiser T) : List SValue → Except PErr (List T)
  | [] => .ok []
  | v :: rest =>
    match v with
    | .vBytes b =>
      match packer.unpack b with
      | .error _ => .error .invalidDataToUnpack
      | .ok t =>
        match unpackSeq packer rest with
        | .error e => .error e
        | .ok ts => .ok (t :: ts)
    | _ => .error .invalidDataToUnpack

/-- Interpret one decrypted attribute tuple by arity: `[v]` is a plain value;
`[flag, bytes]` unpacks one key (by value or reference); `[flag, size, …]`
unpacks a sequence of keys.  Reading past the end of the tuple (or a negative
`make` size) is a runtime panic in the Go goroutine — `panicRecovered` marks
that branch; no theorem relies on it. -/
def decodeAttrValue (packer : IDSerialiser T) : List SValue → Except PErr (RVal T)
  | [] => .error .invalidDataToUnpack
  | [v] => .ok (.plain v)
  | [v0, v1] =>
    match v0 with
    | .vBool flag =>
      match v1 with
      | .vBytes b =>
        match packer.unpack b with
        | .error _ => .error .invalidDataToUnpack
        | .ok t => .ok (if flag then .key t else .keyRef t)
      | _ => .error .invalidDataToUnpack
    | _ => .error .invalidDataToUnpack
  | v0 :: v1 :: rest =>
    match v0 with
    | .vBool flag =>
      match v1 with
      | .vInt64 size =>
        if size < 0 ∨ (rest.length : Int) < size then .error .panicRecovered
        else
          match unpackSeq packer (rest.take size.toNat) with
          | .error e => .error e
          | .ok ts => .ok (if flag then .keys ts else .keyRefs ts)
      | _ => .error .invalidDataToUnpack
    | _ => .error .invalidDataToUnpack

/-- `EncryptedItem.GetValues`: empty request ⇒ empty result; nil provider ⇒
`ErrProviderIsNil`; otherwise unwrap the DEK once and decrypt each requested
attribute (names absent from the item produce no entry).  The per-attribute
goroutines are joined and the first error aborts the call; the model runs them
sequentially in request order, which fixes one admissible gathering order. -/
def GetValues [DecidableEq T] (fuel : Nat) (e : EncryptedItem T)
    (attrs : List GoStr) (provider : Option Provider) :
    Except PErr (List (GoStr × RVal T)) :=
  if attrs.length = 0 then .ok []
  else
    match provider with
    | none => .error .providerIsNil
    | some p =>
      match Provider.Decrypt fuel p e.encryptedKey with
      | .error e2 => .error e2
      | .ok key =>
        attrs.foldlM
          (fun m a =>
            match lookupA e.attributes a with
            | none => .ok m
            | some b =>
              match fromBytesManyEnc (some key) b with
              | none => .error .serialiseError
              | some vs =>
                match decodeAttrValue e.packer vs with
                | .error e2 => .error e2
                | .ok v => .ok (upsert m a v))
          []

/-- The data loader the repository's tests pair with `Pack`: serve the rows of
the requested keys, merged into one flat `name → bytes` map. -/
def loaderOf [DecidableEq T] (rows : RowMap T) (keys : List T) :
    Except PErr (List (GoStr × List Nat)) :=
  .ok (keys.foldl
    (fun acc k =>
      match lookupA rows k with
      | some m => m.foldl (fun a p => upsert a p.1 p.2) acc
      | none => acc)
    [])

-- Concrete fixtures shared by witnesses and counterexamples ------------------

/-- A serialiser for `T = Nat`: `pack t = [t]`, `unpack [t] = t`. -/
def natPacker : IDSerialiser Nat :=
  ⟨[75], fun t => .ok [t],
    fun b => match b with | [t] => .ok t | _ => .error .keyDeserialisationError⟩

/-- A finder that knows no provider. -/
def wFinder : GoStr → Except PErr Provider := fun _ => .error (.finderError 0)

/-- A provider with id `"P"` and a 32-byte master key. -/
def wProvider : Provider := .mk [80] (List.replicate 32 3) wFinder

/-- Fully populated `PackParams` over `Nat` keys (creator mints `i + 1`). -/
def natParams : PackParams Nat :=
  ⟨some wProvider, some (fun i => i + 1), some natPacker, some [77]⟩

/-- Concrete randomness: a 32-byte DEK and a character stream that yields the
same character within one name slot and a different one per slot (names are
built from 6 characters, so slot `s` reads positions `6s … 6s+5`). -/
def wRnd : PackRandom := ⟨List.replicate 32 9, fun i => i / 6⟩

-- C4: sequence-of-references encoding reads past the end ----------------------

/-- C4: packing an item whose attribute is a non-empty `[]*T` (here of length
one) does not succeed: the `createMaps` loop `for i := 0; i <= len(vv); i++`
indexes `vv[len(vv)]`, panics, and the deferred recover in `packItem` turns
the panic into an error. -/
theorem C4_seq_ref_overrun :
    (Pack wRnd (some ⟨0, [([114], GoVal.keyRefs [5])]⟩) (some natParams) []).1
      = .error .panicRecovered := by
  rfl

-- C7: MaxSizeTooSmall --------------------------------------------------------

/-- The `maxSize` resolved by `applyDefaults1` is the folded value unless it
is zero, in which case it is the 350 KiB default. -/
theorem applyDefaults1_maxSize (o : Options) :
    (applyDefaults1 o).maxSize = if o.maxSize = 0 then 350 * 1024 else o.maxSize := by
  simp only [applyDefaults1]
  split_ifs <;> rfl

/-- `packItem` rejects a nonzero `maxSize` below 10 KiB with
`ErrMaxSizeTooSmall`, before any packing work. -/
theorem packItem_maxSizeTooSmall {T : Type} [DecidableEq T] (rnd : PackRandom)
    (it : Item T) (ps : PackParams T)
    (opts : List (Options → Options))
    (prov : Provider) (cr : Nat → T) (pk : IDSerialiser T) (ap : GoStr)
    (hprov : ps.provider = some prov) (hcr : ps.creator = some cr)
    (hpk : ps.packer = some pk) (hap : ps.approach = some ap)
    (hnz : (foldOpts opts).maxSize ≠ 0) (hsm : (foldOpts opts).maxSize < minSize) :
    (packItem rnd it (some ps) opts).1 = .error .maxSizeTooSmall := by
  have hms : (applyDefaults1 (foldOpts opts)).maxSize < minSize := by
    rw [applyDefaults1_maxSize, if_neg hnz]
    exact hsm
  simp [packItem, PackParams.validateX, hprov, hcr, hpk, hap, hms]

/-- C7: a `Pack` or `PackKey` call whose options set `maxSize` to a nonzero
value below 10 KiB returns `ErrMaxSizeTooSmall` and nothing else (the `Except`
error carries no envelope and no row map). -/
theorem C7_max_size_too_small {T : Type} [DecidableEq T] (rnd : PackRandom)
    (it : Item T) (k : T) (ps : PackParams T) (opts : List (Options → Options))
    (prov : Provider) (cr : Nat → T) (pk : IDSerialiser T) (ap : GoStr)
    (hattrs : it.attributes.length ≠ 0)
    (hprov : ps.provider = some prov) (hcr : ps.creator = some cr)
    (hpk : ps.packer = some pk) (hap : ps.approach = some ap)
    (hnz : (foldOpts opts).maxSize ≠ 0) (hsm : (foldOpts opts).maxSize < minSize) :
    (Pack rnd (some it) (some ps) opts).1 = .error .maxSizeTooSmall ∧
      PackKey rnd (some k) (some ps) opts = .error .maxSizeTooSmall := by
  have hp := packItem_maxSizeTooSmall rnd it ps opts prov cr pk ap
    hprov hcr hpk hap hnz hsm
  have hpk2 := packItem_maxSizeTooSmall rnd (⟨k, []⟩ : Item T) ps opts prov cr pk ap
    hprov hcr hpk hap hnz hsm
  constructor
  · simp [Pack, hattrs, hp]
  · simp [PackKey, hpk2]

/-- Witness for C7: `Pack` and `PackKey` with `WithMaximumKBSize 5` (5 KiB)
both fail with `ErrMaxSizeTooSmall`. -/
theorem C7_max_size_too_small_witness :
    (Pack wRnd (some ⟨0, [([97], GoVal.plain (.vBool true))]⟩) (some natParams)
        [WithMaximumKBSize 5]).1 = .error .maxSizeTooSmall ∧
      PackKey wRnd (some 0) (some natParams) [WithMaximumKBSize 5]
        = .error .maxSizeTooSmall :=
  C7_max_size_too_small wRnd ⟨0, [([97], GoVal.plain (.vBool true))]⟩ 0 natParams
    [WithMaximumKBSize 5] wProvider (fun i => i + 1) natPacker [77]
    (by decide) rfl rfl rfl rfl (by decide) (by decide)

-- C8: GetValues with a nil provider -------------------------------------------

/-- C8 counterexample: with an empty list of requested names, `GetValues`
returns the empty result before ever checking the provider — so a nil provider
does not produce `ErrProviderIsNil` for every request list. -/
theorem C8_counterexample :
    GetValues 1 (⟨0, [], [], [77], natPacker⟩ : EncryptedItem Nat) [] none
      = .ok [] := by
  rfl

/-- C8 (amended): for every non-empty list of requested names, `GetValues`
with a nil provider returns `ErrProviderIsNil` and no result map. -/
theorem C8_nil_provider {T : Type} [DecidableEq T] (fuel : Nat)
    (e : EncryptedItem T) (attrs : List GoStr) (h : attrs ≠ []) :
    GetValues fuel e attrs none = .error .providerIsNil := by
  have hl : ¬attrs.length = 0 := by
    simpa [List.length_eq_zero] using h
  simp [GetValues, hl]

/-- Witness for C8: one requested name, nil provider. -/
theorem C8_nil_provider_witness :
    GetValues 1 (⟨0, [], [], [77], natPacker⟩ : EncryptedItem Nat) [[120]] none
      = .error .providerIsNil :=
  C8_nil_provider 1 _ _ (by decide)

-- C6: version prefix ----------------------------------------------------------

/-- Every successful `packItem` output decodes to `[int8 1, bytes]`. -/
theorem packItem_ok_shape {T : Type} [DecidableEq T] (rnd : PackRandom)
    (it : Item T) (params : Option (PackParams T))
    (opts : List (Options → Options)) (env : List Nat) (rows : RowMap T)
    (h : (packItem rnd it params opts).1 = .ok (env, rows)) :
    ∃ inner, decodeMany env = some [.vInt8 1, .vBytes inner] := by
  unfold packItem at h
  split at h
  · simp at h
  · split at h
    · simp at h
    · split at h
      · simp at h
      · split at h
        split at h
        · split at h
          · simp at h
          · simp only [Except.ok.injEq, Prod.mk.injEq] at h
            rename_i hver x2 dd outt itt hpd
            obtain ⟨henv, -⟩ := h
            exact ⟨dd, by rw [← henv, hver]; exact decodeMany_encodeMany _⟩
        · simp at h

/-- Unpack params over `Nat` keys with every collaborator present, used to
exercise `Unpack` on raw byte streams. -/
def natUnpackParams : UnpackParams Nat :=
  ⟨some (loaderOf ([] : RowMap Nat)), some (fun _ => .ok natPacker), some wProvider⟩

/-- C6 counterexample: a stream whose decoded version element is `int8 2`
(so not 1) for which `Unpack` returns `ErrUnpackInvalidData`, not
`ErrUnsupportedPackVersion` — the second element's type check runs before the
version switch. -/
theorem C6_counterexample :
    decodeMany (encodeMany [.vInt8 2, .vString [72]])
        = some [.vInt8 2, .vString [72]] ∧
      Unpack 1 (encodeMany [.vInt8 2, .vString [72]]) (some natUnpackParams)
        = .error .unpackInvalidData := by
  exact ⟨decodeMany_encodeMany _, by rfl⟩

/-- C6 (amended): (a) every successful `Pack` output's first codec-V1 element
is `int8 1`; (b) every byte stream that decodes to a pair `[int8 v, bytes]`
with `v ≠ 1`, unpacked with fully populated params, yields
`ErrUnsupportedPackVersion`. -/
theorem C6_version_prefix :
    (∀ {T : Type} [inst : DecidableEq T] (rnd : PackRandom)
      (item : Option (Item T)) (params : Option (PackParams T))
      (opts : List (Options → Options)) (env : List Nat) (rows : RowMap T),
      (Pack rnd item params opts).1 = .ok (env, rows) →
      ∃ inner, decodeMany env = some [.vInt8 1, .vBytes inner]) ∧
    (∀ {T : Type} [inst : DecidableEq T] (fuel : Nat) (data : List Nat)
      (u : UnpackParams T) (dl : List T → Except PErr (List (GoStr × List Nat)))
      (ir : GoStr → Except PErr (IDSerialiser T)) (prov : Provider)
      (pv : Int) (b : List Nat),
      u.dataLoader = some dl → u.idRetriever = some ir → u.provider = some prov →
      decodeMany data = some [.vInt8 pv, .vBytes b] → pv ≠ 1 →
      Unpack fuel data (some u) = .error .unsupportedPackVersion) := by
  constructor
  · intro T inst rnd item params opts env rows h
    cases item with
    | none => simp [Pack] at h
    | some it =>
      simp only [Pack] at h
      split at h
      · simp at h
      · exact packItem_ok_shape rnd it params opts env rows (by simpa using h)
  · intro T inst fuel data u dl ir prov pv b hdl hir hprov hdec hne
    have hd : data ≠ [] := by
      intro h0
      rw [h0] at hdec
      simp [decodeMany] at hdec
    have hl : ¬data.length = 0 := by
      simpa [List.length_eq_zero] using hd
    simp [Unpack, hl, UnpackParams.validateX, hdl, hir, hprov, hdec, hne]

/-- The envelope bytes of a concrete successful `Pack` call over `Nat` keys. -/
def packEnvC6 : List Nat :=
  match (Pack wRnd (some ⟨0, [([97], GoVal.plain (.vBool true))]⟩)
      (some natParams) []).1 with
  | .ok (env, _) => env
  | .error _ => []

/-- The row map of that same `Pack` call. -/
def packRowsC6 : RowMap Nat :=
  match (Pack wRnd (some ⟨0, [([97], GoVal.plain (.vBool true))]⟩)
      (some natParams) []).1 with
  | .ok (_, rows) => rows
  | .error _ => []

/-- Witness for C6: the concrete envelope decodes with version `int8 1`, and a
concrete `[int8 2, bytes]` stream is rejected as unsupported. -/
theorem C6_version_prefix_witness :
    (∃ inner, decodeMany packEnvC6 = some [.vInt8 1, .vBytes inner]) ∧
      Unpack 1 (encodeMany [.vInt8 2, .vBytes [5]]) (some natUnpackParams)
        = .error .unsupportedPackVersion := by
  constructor
  · exact C6_version_prefix.1 wRnd (some ⟨0, [([97], GoVal.plain (.vBool true))]⟩)
      (some natParams) [] packEnvC6 packRowsC6 (by rfl)
  · exact C6_version_prefix.2 1 (encodeMany [.vInt8 2, .vBytes [5]])
      natUnpackParams (loaderOf ([] : RowMap Nat)) (fun _ => .ok natPacker)
      wProvider 2 [5] rfl rfl rfl (decodeMany_encodeMany _) (by decide)

-- C2: chunking advances by maxSize instead of maxAttrValueSize ----------------

/-- One iteration of the chunking loop: the blob still exceeds
`maxAttrValueSize`, a fresh name is drawn, the slice `b[maxSize:]` is in
bounds, and the loop continues on the rest. -/
theorem chunkSplit_step (chars : Nat → Nat) (size retries maxAttr maxSize : Nat)
    (f : Nat) (b : List Nat) (slot : Nat) (ex accN : List GoStr)
    (accV : List (GoStr × List Nat)) (an : GoStr) (slot' : Nat)
    (h1 : maxAttr < b.length) (h2 : ¬ b.length < maxSize)
    (hn : uniqueAttributeName chars size retries slot ex = .ok (an, slot')) :
    chunkSplit chars size retries maxAttr maxSize (f + 1) b slot ex accN accV
      = chunkSplit chars size retries maxAttr maxSize f (b.drop maxSize) slot'
          (ex ++ [an]) (accN ++ [an]) (accV ++ [(an, b.take maxAttr)]) := by
  rw [chunkSplit.eq_def]
  simp [h1, h2, hn]

/-- The final step of the chunking loop: the blob fits in `maxAttrValueSize`
and is stored whole under one more fresh name. -/
theorem chunkSplit_last (chars : Nat → Nat) (size retries maxAttr maxSize : Nat)
    (fuel : Nat) (b : List Nat) (slot : Nat) (ex accN : List GoStr)
    (accV : List (GoStr × List Nat)) (an : GoStr) (slot' : Nat)
    (h1 : ¬ maxAttr < b.length)
    (hn : uniqueAttributeName chars size retries slot ex = .ok (an, slot')) :
    chunkSplit chars size retries maxAttr maxSize fuel b slot ex accN accV
      = .ok (accN ++ [an], accV ++ [(an, b)], slot', ex ++ [an]) := by
  rw [chunkSplit.eq_def]
  simp [h1, hn]

/-- C2: with `maxSize = 10 KiB` and `maxAttrValueSize = 1 KiB` (the resolved
values of `WithMaximumKBSize 10, WithAttributeValueMaximumKBSize 1`, as the
last two conjuncts record), the chunking loop of `createMaps` stores a
10 241-byte blob as two chunks of 1 024 and 1 bytes: it stores
`b[0:maxAttrValueSize]` but advances `b = b[maxSize:]`, silently dropping the
9 216 bytes in between, instead of producing the eleven consecutive
1 024-byte prefixes (tail remainder last) whose concatenation is the blob. -/
theorem C2_chunk_slide_bug (f : Nat) :
    chunkSplit wRnd.chars 6 1 1024 10240 (f + 2) (List.replicate 10241 7) 0 [] [] []
      = .ok ([List.replicate 6 65, List.replicate 6 66],
          [(List.replicate 6 65, List.replicate 1024 7), (List.replicate 6 66, [7])],
          2, [List.replicate 6 65, List.replicate 6 66]) ∧
      (resolveOptions [WithMaximumKBSize 10, WithAttributeValueMaximumKBSize 1]).maxAttrValueSize
        = 1024 ∧
      (resolveOptions [WithMaximumKBSize 10, WithAttributeValueMaximumKBSize 1]).maxSize
        = 10240 ∧
      1024 + 1 ≠ 10241 := by
  refine ⟨?_, by decide, by decide, by decide⟩
  have hn0 : uniqueAttributeName wRnd.chars 6 1 0 [] = .ok (List.replicate 6 65, 1) := by
    decide
  have hn1 : uniqueAttributeName wRnd.chars 6 1 1 [List.replicate 6 65]
      = .ok (List.replicate 6 66, 2) := by
    decide
  have h1 : (1024 : Nat) < (List.replicate 10241 7).length := by
    rw [List.length_replicate]; omega
  have h2 : ¬ (List.replicate 10241 7).length < 10240 := by
    rw [List.length_replicate]; omega
  rw [show f + 2 = (f + 1) + 1 by omega]
  rw [chunkSplit_step wRnd.chars 6 1 1024 10240 (f + 1) (List.replicate 10241 7) 0 [] []
      [] (List.replicate 6 65) 1 h1 h2 hn0]
  rw [List.drop_replicate, List.take_replicate]
  simp only [List.nil_append]
  rw [chunkSplit_last wRnd.chars 6 1 1024 10240 (f + 1) (List.replicate (10241 - 10240) 7)
      1 [List.replicate 6 65] [List.replicate 6 65]
      [(List.replicate 6 65, List.replicate (min 1024 10241) 7)] (List.replicate 6 66) 2
      (by rw [List.length_replicate]; omega) hn1]
  norm_num

-- C3: the primary row keeps every pair, bursting its budget ------------------

/-- C3: with `maxSize = 10 KiB` the primary-row budget `maxSize − minSize` is
zero, yet the primary row of the returned row map still carries the item's
42-byte pair — `createElements` collects over-budget pairs into `rest` but
never removes them from `vals`, which it stores wholesale as the primary row. -/
theorem C3_primary_row_budget_bug :
    (match (Pack wRnd (some ⟨0, [([97], GoVal.plain (.vBool true))]⟩)
        (some natParams) [WithMaximumKBSize 10]).1 with
      | .ok (_, rows) =>
        (lookupA rows 0).map (fun (m : List (GoStr × List Nat)) => (m.map pairWeight).sum)
      | .error _ => none) = some 42 ∧
      (resolveOptions [WithMaximumKBSize 10]).maxSize - minSize = 0 ∧ 0 < 42 := by
  exact ⟨by decide, by decide, by decide⟩

-- C9: generated row names are pairwise distinct -------------------------------

/-- A name accepted by `uniqueAttributeName` was not in the `existing` set. -/
theorem uniqueAttributeName_not_mem (chars : Nat → Nat) (size : Nat) :
    ∀ (r slot : Nat) (ex : List GoStr) (an : GoStr) (slot' : Nat),
      uniqueAttributeName chars size r slot ex = .ok (an, slot') → an ∉ ex := by
  intro r
  induction r with
  | zero => intro slot ex an slot' h; simp [uniqueAttributeName] at h
  | succ n ih =>
    intro slot ex an slot' h
    rw [uniqueAttributeName] at h
    split at h
    · exact ih (slot + 1) ex an slot' h
    · rename_i hmem
      simp only [Except.ok.injEq, Prod.mk.injEq] at h
      obtain ⟨rfl, rfl⟩ := h
      exact hmem

/-- Appending a chunk under a name outside the `used` set preserves the
distinct-names invariant. -/
theorem nodup_inv_step (accV : List (GoStr × List Nat)) (ex : List GoStr)
    (an : GoStr) (c : List Nat)
    (hnd : (accV.map Prod.fst).Nodup) (hsub : ∀ n ∈ accV.map Prod.fst, n ∈ ex)
    (hannot : an ∉ ex) :
    ((accV ++ [(an, c)]).map Prod.fst).Nodup ∧
      (∀ n ∈ (accV ++ [(an, c)]).map Prod.fst, n ∈ ex ++ [an]) := by
  constructor
  · simp only [List.map_append, List.map_cons, List.map_nil]
    rw [List.nodup_append]
    refine ⟨hnd, by simp, ?_⟩
    intro n hn1 hn2
    simp at hn2
    subst hn2
    exact hannot (hsub n hn1)
  · intro n hmem
    simp only [List.map_append, List.map_cons, List.map_nil,
      List.mem_append, List.mem_cons] at hmem ⊢
    rcases hmem with hl | hr
    · exact Or.inl (hsub n hl)
    · simp at hr
      simp [hr]

/-- The chunking loop preserves the invariant that the stored chunk names are
pairwise distinct and all recorded in the `used` set. -/
theorem chunkSplit_nodup (chars : Nat → Nat) (size retries maxAttr maxSize : Nat) :
    ∀ (fuel : Nat) (b : List Nat) (slot : Nat) (ex accN : List GoStr)
      (accV : List (GoStr × List Nat)) (names : List GoStr)
      (accV' : List (GoStr × List Nat)) (slot' : Nat) (ex' : List GoStr),
      (accV.map Prod.fst).Nodup → (∀ n ∈ accV.map Prod.fst, n ∈ ex) →
      chunkSplit chars size retries maxAttr maxSize fuel b slot ex accN accV
        = .ok (names, accV', slot', ex') →
      (accV'.map Prod.fst).Nodup ∧ (∀ n ∈ accV'.map Prod.fst, n ∈ ex') := by
  intro fuel
  induction fuel with
  | zero =>
    intro b slot ex accN accV names accV' slot' ex' hnd hsub h
    rw [chunkSplit.eq_def] at h
    by_cases hc : maxAttr < b.length
    · rw [if_pos hc] at h
      simp at h
    · rw [if_neg hc] at h
      cases hu : uniqueAttributeName chars size retries slot ex with
      | error e => rw [hu] at h; simp at h
      | ok p =>
        obtain ⟨an, slot2⟩ := p
        rw [hu] at h
        simp only [Except.ok.injEq, Prod.mk.injEq] at h
        obtain ⟨-, h2, -, h4⟩ := h
        subst h2 h4
        exact nodup_inv_step accV ex an b hnd hsub
          (uniqueAttributeName_not_mem chars size retries slot ex an slot2 hu)
  | succ f ih =>
    intro b slot ex accN accV names accV' slot' ex' hnd hsub h
    rw [chunkSplit.eq_def] at h
    by_cases hc : maxAttr < b.length
    · rw [if_pos hc] at h
      cases hu : uniqueAttributeName chars size retries slot ex with
      | error e => rw [hu] at h; simp at h
      | ok p =>
        obtain ⟨an, slot2⟩ := p
        rw [hu] at h
        dsimp only at h
        by_cases hp : b.length < maxSize
        · rw [if_pos hp] at h
          simp at h
        · rw [if_neg hp] at h
          have hstep := nodup_inv_step accV ex an (b.take maxAttr) hnd hsub
            (uniqueAttributeName_not_mem chars size retries slot ex an slot2 hu)
          exact ih (b.drop maxSize) slot2 (ex ++ [an]) (accN ++ [an])
            (accV ++ [(an, b.take maxAttr)]) names accV' slot' ex'
            hstep.1 hstep.2 h
    · rw [if_neg hc] at h
      cases hu : uniqueAttributeName chars size retries slot ex with
      | error e => rw [hu] at h; simp at h
      | ok p =>
        obtain ⟨an, slot2⟩ := p
        rw [hu] at h
        simp only [Except.ok.injEq, Prod.mk.injEq] at h
        obtain ⟨-, h2, -, h4⟩ := h
        subst h2 h4
        exact nodup_inv_step accV ex an b hnd hsub
          (uniqueAttributeName_not_mem chars size retries slot ex an slot2 hu)

/-- `createMapsAux` preserves the distinct-names invariant across attributes. -/
theorem createMapsAux_nodup {T : Type} (packer : IDSerialiser T)
    (encKey : Option (List Nat)) (chars : Nat → Nat)
    (size retries maxAttr maxSize : Nat) :
    ∀ (l : List (GoStr × GoVal T)) (slot : Nat) (ex : List GoStr)
      (accA : List (GoStr × List GoStr)) (accV : List (GoStr × List Nat))
      (r : List (GoStr × List GoStr) × List (GoStr × List Nat) × Nat × List GoStr),
      (accV.map Prod.fst).Nodup → (∀ n ∈ accV.map Prod.fst, n ∈ ex) →
      (createMapsAux packer encKey chars size retries maxAttr maxSize
          l slot ex accA accV).1 = .ok r →
      (r.2.1.map Prod.fst).Nodup := by
  intro l
  induction l with
  | nil =>
    intro slot ex accA accV r hnd hsub h
    simp only [createMapsAux, Except.ok.injEq] at h
    subst h
    exact hnd
  | cons hd tl ih =>
    intro slot ex accA accV r hnd hsub h
    obtain ⟨k, v⟩ := hd
    rw [createMapsAux.eq_def] at h
    dsimp only at h
    cases he : encodeAttrTuple packer v with
    | error e => rw [he] at h; simp at h
    | ok tup =>
      rw [he] at h
      dsimp only at h
      cases hcs : chunkSplit chars size retries maxAttr maxSize
          ((toBytesManyEnc encKey tup).length + 1) (toBytesManyEnc encKey tup)
          slot ex [] accV with
      | error e => rw [hcs] at h; simp at h
      | ok q =>
        obtain ⟨names, accV', slot', ex'⟩ := q
        rw [hcs] at h
        dsimp only at h
        have hinv := chunkSplit_nodup chars size retries maxAttr maxSize
          ((toBytesManyEnc encKey tup).length + 1) (toBytesManyEnc encKey tup)
          slot ex [] accV names accV' slot' ex' hnd hsub hcs
        exact ih slot' ex' (accA ++ [(k, names)]) accV' r hinv.1 hinv.2 h

/-- C9: within a single `Pack` call, all generated row names (across all
attributes and all chunks — name generation happens only in `createMaps`) are
pairwise distinct: whenever `createMaps` succeeds, the keys of the `valMap` it
returns have no duplicates. -/
theorem C9_unique_row_names {T : Type} (packer : IDSerialiser T)
    (encKey : Option (List Nat)) (chars : Nat → Nat)
    (size retries maxAttr maxSize : Nat) (attrs : List (GoStr × GoVal T))
    (r : List (GoStr × List GoStr) × List (GoStr × List Nat) × Nat × List GoStr)
    (h : (createMapsAux packer encKey chars size retries maxAttr maxSize
        attrs 0 [] [] []).1 = .ok r) :
    (r.2.1.map Prod.fst).Nodup :=
  createMapsAux_nodup packer encKey chars size retries maxAttr maxSize attrs 0 [] [] []
    r (by simp) (by simp) h

/-- The result of a concrete two-attribute `createMaps` run. -/
def c9res : List (GoStr × List GoStr) × List (GoStr × List Nat) × Nat × List GoStr :=
  match (createMapsAux natPacker (some (List.replicate 32 9)) wRnd.chars 6 1
      102400 358400 [([97], GoVal.plain (.vBool true)), ([98], GoVal.plain (.vBool false))]
      0 [] [] []).1 with
  | .ok r => r
  | .error _ => ([], [], 0, [])

/-- Witness for C9: the concrete run succeeds and its generated row names are
pairwise distinct. -/
theorem C9_unique_row_names_witness :
    (createMapsAux natPacker (some (List.replicate 32 9)) wRnd.chars 6 1
        102400 358400 [([97], GoVal.plain (.vBool true)), ([98], GoVal.plain (.vBool false))]
        0 [] [] []).1 = .ok c9res ∧
      (c9res.2.1.map Prod.fst).Nodup :=
  ⟨by rfl, C9_unique_row_names natPacker (some (List.replicate 32 9)) wRnd.chars 6 1
      102400 358400 [([97], GoVal.plain (.vBool true)), ([98], GoVal.plain (.vBool false))]
      c9res (by rfl)⟩

-- C10: Pack leaves the caller's item unchanged --------------------------------

/-- `createMaps` hands the attribute map back exactly as it iterated it: the
translation threads the map reference through every statement, and no
statement stores into it. -/
theorem createMapsAux_frame {T : Type} (packer : IDSerialiser T)
    (encKey : Option (List Nat)) (chars : Nat → Nat)
    (size retries maxAttr maxSize : Nat) :
    ∀ (l : List (GoStr × GoVal T)) (slot : Nat) (ex : List GoStr)
      (accA : List (GoStr × List GoStr)) (accV : List (GoStr × List Nat)),
      (createMapsAux packer encKey chars size retries maxAttr maxSize
        l slot ex accA accV).2 = l := by
  intro l
  induction l with
  | nil => intro slot ex accA accV; rfl
  | cons hd tl ih =>
    intro slot ex accA accV
    obtain ⟨k, v⟩ := hd
    rw [createMapsAux.eq_def]
    dsimp only
    cases he : encodeAttrTuple packer v with
    | error e => rfl
    | ok tup =>
      dsimp only
      cases hcs : chunkSplit chars size retries maxAttr maxSize
          ((toBytesManyEnc encKey tup).length + 1) (toBytesManyEnc encKey tup)
          slot ex [] accV with
      | error e => rfl
      | ok q =>
        obtain ⟨names, accV', slot', ex'⟩ := q
        dsimp only
        rw [ih slot' ex' (accA ++ [(k, names)]) accV']

/-- `packDetailsV1` returns the item it was handed: the key passes through by
value and the attribute map comes back from `createMaps` unchanged. -/
theorem packDetailsV1_frame {T : Type} [DecidableEq T] (creator : Nat → T)
    (packer : IDSerialiser T) (approachName : GoStr) (o : Options)
    (chars : Nat → Nat) (item : Item T) (encryptedKey encKey : List Nat) :
    (packDetailsV1 creator packer approachName o chars item encryptedKey encKey).2
      = item := by
  have hfr := createMapsAux_frame packer (some encKey) chars o.attrNameSize
    o.attrNameRetries o.maxAttrValueSize o.maxSize item.attributes 0 [] [] []
  rw [packDetailsV1.eq_def]
  split
  rename_i r attrsIter heq
  have h2 : attrsIter = item.attributes := by
    rw [← hfr, heq]
  subst h2
  cases r with
  | error e => rfl
  | ok out =>
    obtain ⟨attrMap, valMap, s, ex⟩ := out
    dsimp only
    split
    · rfl
    · split
      · rfl
      · rfl

/-- C10: a `Pack` (or `PackKey`, which shares `packItem` and receives the
caller's key by value) call never mutates the caller's item: the threaded item
comes back equal to the input, whether the call succeeds or fails. -/
theorem C10_pack_frame {T : Type} [DecidableEq T] (rnd : PackRandom)
    (it : Item T) (item : Option (Item T)) (params : Option (PackParams T))
    (opts : List (Options → Options)) :
    (packItem rnd it params opts).2 = it ∧ (Pack rnd item params opts).2 = item := by
  have hpi : ∀ (it2 : Item T), (packItem rnd it2 params opts).2 = it2 := by
    intro it2
    rw [packItem.eq_def]
    cases params with
    | none => rfl
    | some ps =>
      dsimp only
      cases ps.validateX with
      | error e => rfl
      | ok q =>
        obtain ⟨prov, creator, packer, approachName⟩ := q
        dsimp only
        split
        · rfl
        · split
          · split
            · rename_i e2 item2 hpd
              have hf := packDetailsV1_frame creator packer approachName
                (resolveOptions opts) rnd.chars it2 (prov.New rnd.dek).1 (prov.New rnd.dek).2
              rw [hpd] at hf
              exact hf
            · rename_i d2 out2 item2 hpd
              have hf := packDetailsV1_frame creator packer approachName
                (resolveOptions opts) rnd.chars it2 (prov.New rnd.dek).1 (prov.New rnd.dek).2
              rw [hpd] at hf
              exact hf
          · rfl
  refine ⟨hpi it, ?_⟩
  cases item with
  | none => rfl
  | some it2 =>
    rw [Pack.eq_def]
    dsimp only
    split
    · rfl
    · simp [hpi it2]

-- C1: round trip ---------------------------------------------------------------

/-- The attribute families whose encoding the engine handles without the two
panics exhibited by the C1 counterexample: anything except a `[]*T`
(over-indexing loop) and except an empty `[]T` (whose two-element tuple is
misread as a single key on decode). -/
def isGoodVal : GoVal T → Bool
  | .plain _ => true
  | .key _ => true
  | .keyRef _ => true
  | .keys ts => !ts.isEmpty
  | .keyRefs _ => false

/-- The tuple `createMaps` serialises for each family, written with an
explicit key encoder `penc`. -/
def tupOf (penc : T → List Nat) : GoVal T → List SValue
  | .plain v => [v]
  | .key t => [.vBool true, .vBytes (penc t)]
  | .keyRef t => [.vBool false, .vBytes (penc t)]
  | .keys ts =>
    [.vBool true, .vInt64 (ts.length : Int)] ++ (ts.map penc).map SValue.vBytes
  | .keyRefs _ => []

/-- The encrypted blob stored for one attribute value. -/
def blobOf (encKey : Option (List Nat)) (penc : T → List Nat) (v : GoVal T) :
    List Nat :=
  toBytesManyEnc encKey (tupOf penc v)

/-- The attr map a chunk-free `createMaps` run produces, one fresh name per
attribute starting at stream slot `s`. -/
def specAttrMap (chars : Nat → Nat) (size : Nat) :
    Nat → List (GoStr × GoVal T) → List (GoStr × List GoStr)
  | _, [] => []
  | s, (k, _) :: rest => (k, [nameAt chars size s]) :: specAttrMap chars size (s + 1) rest

/-- The val map a chunk-free `createMaps` run produces. -/
def specValMap (chars : Nat → Nat) (size : Nat) (encKey : Option (List Nat))
    (penc : T → List Nat) :
    Nat → List (GoStr × GoVal T) → List (GoStr × List Nat)
  | _, [] => []
  | s, (_, v) :: rest =>
    (nameAt chars size s, blobOf encKey penc v) :: specValMap chars size encKey penc (s + 1) rest

/-- The decrypted value `GetValues` recovers for each original family. -/
def toRVal : GoVal T → RVal T
  | .plain v => .plain v
  | .key t => .key t
  | .keyRef t => .keyRef t
  | .keys ts => .keys ts
  | .keyRefs ts => .keyRefs ts

/-- Packing every key of a list succeeds, with `penc` the per-key bytes. -/
theorem packAll_ok {T : Type} (packer : IDSerialiser T) (penc : T → List Nat)
    (hpenc : ∀ t, packer.pack t = .ok (penc t)) :
    ∀ ts : List T, packAll packer ts = .ok (ts.map penc) := by
  intro ts
  induction ts with
  | nil => rfl
  | cons t tl ih => simp [packAll, hpenc, ih]

/-- Under a total packer, `createMaps` encodes each good family into its
documented tuple. -/
theorem encodeAttrTuple_eq {T : Type} (packer : IDSerialiser T)
    (penc : T → List Nat) (hpenc : ∀ t, packer.pack t = .ok (penc t))
    (v : GoVal T) (hv : isGoodVal v = true) :
    encodeAttrTuple packer v = .ok (tupOf penc v) := by
  cases v with
  | plain w => rfl
  | key t => simp [encodeAttrTuple, hpenc, tupOf]
  | keyRef t => simp [encodeAttrTuple, hpenc, tupOf]
  | keys ts => simp [encodeAttrTuple, packAll_ok packer penc hpenc, tupOf]
  | keyRefs ts => simp [isGoodVal] at hv

-- upsert / lookup helpers

theorem lookupA_nil [DecidableEq α] (k : α) : lookupA ([] : List (α × β)) k = none := rfl

theorem lookupA_cons_self [DecidableEq α] (p : α × β) (l : List (α × β)) :
    lookupA (p :: l) p.1 = some p.2 := by
  simp [lookupA, List.find?_cons]

theorem lookupA_cons_ne [DecidableEq α] (p : α × β) (l : List (α × β)) (k : α)
    (h : p.1 ≠ k) : lookupA (p :: l) k = lookupA l k := by
  simp [lookupA, List.find?_cons, h]

theorem upsert_cons_ne [DecidableEq α] (p : α × β) (tl : List (α × β)) (k : α)
    (v : β) (h : p.1 ≠ k) : upsert (p :: tl) k v = p :: upsert tl k v := by
  unfold upsert
  by_cases ha : (tl.any fun q => q.1 = k) = true
  · rw [if_pos, if_pos ha]
    · simp [h]
    · simp [List.any_cons, ha]
  · rw [if_neg, if_neg ha]
    · simp
    · simp [List.any_cons, h, ha]

theorem upsert_cons_eq [DecidableEq α] (p : α × β) (tl : List (α × β)) (k : α)
    (v : β) (h : p.1 = k) :
    upsert (p :: tl) k v = (k, v) :: (tl.map fun q => if q.1 = k then (k, v) else q) := by
  unfold upsert
  rw [if_pos]
  · simp [h]
  · simp [List.any_cons, h]

theorem lookupA_upsert_self [DecidableEq α] (l : List (α × β)) (k : α) (v : β) :
    lookupA (upsert l k v) k = some v := by
  induction l with
  | nil =>
    show lookupA (upsert [] k v) k = some v
    rw [upsert]
    simp
    exact lookupA_cons_self (k, v) []
  | cons p tl ih =>
    by_cases hp : p.1 = k
    · rw [upsert_cons_eq p tl k v hp]
      exact lookupA_cons_self (k, v) _
    · rw [upsert_cons_ne p tl k v hp, lookupA_cons_ne p _ k hp]
      exact ih

theorem lookupA_upsert_ne [DecidableEq α] (l : List (α × β)) (k k' : α) (v : β)
    (h : k' ≠ k) : lookupA (upsert l k v) k' = lookupA l k' := by
  induction l with
  | nil =>
    rw [upsert]
    simp
    rw [lookupA_cons_ne (k, v) [] k' (Ne.symm h)]
  | cons p tl ih =>
    by_cases hp : p.1 = k
    · rw [upsert_cons_eq p tl k v hp, lookupA_cons_ne (k, v) _ k' (Ne.symm h)]
      rw [lookupA_cons_ne p tl k' (hp ▸ Ne.symm h)]
      clear ih
      induction tl with
      | nil => rfl
      | cons q tq ihq =>
        by_cases hq : q.1 = k
        · simp only [List.map_cons, if_pos hq]
          rw [lookupA_cons_ne (k, v) _ k' (Ne.symm h), lookupA_cons_ne q tq k' (hq ▸ Ne.symm h)]
          exact ihq
        · simp only [List.map_cons, if_neg hq]
          by_cases hq' : q.1 = k'
          · rw [show lookupA (q :: List.map _ tq) k' = some q.2 from hq' ▸ lookupA_cons_self q _,
              show lookupA (q :: tq) k' = some q.2 from hq' ▸ lookupA_cons_self q tq]
          · rw [lookupA_cons_ne q _ k' hq', lookupA_cons_ne q tq k' hq']
            exact ihq
    · rw [upsert_cons_ne p tl k v hp]
      by_cases hq : p.1 = k'
      · rw [show lookupA (p :: upsert tl k v) k' = some p.2 from hq ▸ lookupA_cons_self p _,
          show lookupA (p :: tl) k' = some p.2 from hq ▸ lookupA_cons_self p tl]
      · rw [lookupA_cons_ne p _ k' hq, lookupA_cons_ne p tl k' hq]
        exact ih

theorem upsert_mem [DecidableEq α] (l : List (α × β)) (k : α) (v : β)
    (q : α × β) (hq : q ∈ upsert l k v) : q = (k, v) ∨ q ∈ l := by
  unfold upsert at hq
  split at hq
  · rw [List.mem_map] at hq
    obtain ⟨p, hp, hpe⟩ := hq
    by_cases hc : p.1 = k
    · rw [if_pos hc] at hpe
      exact Or.inl hpe.symm
    · rw [if_neg hc] at hpe
      exact Or.inr (hpe ▸ hp)
  · rw [List.mem_append] at hq
    rcases hq with h | h
    · exact Or.inr h
    · simp at h
      exact Or.inl h

/-- When the key is fresh, `upsert` is plain append. -/
theorem upsert_fresh [DecidableEq α] (l : List (α × β)) (k : α) (v : β)
    (h : ∀ p ∈ l, p.1 ≠ k) : upsert l k v = l ++ [(k, v)] := by
  unfold upsert
  rw [if_neg]
  simp only [List.any_eq_true, decide_eq_true_eq, not_exists]
  intro p
  by_cases hp : p ∈ l
  · simp [hp, h p hp]
  · simp [hp]

/-- Looking up a member of a key-nodup association list finds its value. -/
theorem lookupA_of_mem [DecidableEq α] (l : List (α × β)) (p : α × β)
    (hnd : (l.map Prod.fst).Nodup) (hp : p ∈ l) : lookupA l p.1 = some p.2 := by
  induction l with
  | nil => simp at hp
  | cons q tl ih =>
    rw [List.mem_cons] at hp
    rcases hp with h | h
    · subst h
      exact lookupA_cons_self p tl
    · have hq : q.1 ≠ p.1 := by
        intro hc
        rw [List.map_cons, List.nodup_cons] at hnd
        exact hnd.1 (hc ▸ List.mem_map_of_mem Prod.fst h)
      rw [lookupA_cons_ne q tl p.1 hq]
      exact ih (by rw [List.map_cons, List.nodup_cons] at hnd; exact hnd.2) h

/-- Two members of a key-nodup association list with the same key coincide. -/
theorem mem_eq_of_nodup_keys [DecidableEq α] (l : List (α × β)) (p q : α × β)
    (hnd : (l.map Prod.fst).Nodup) (hp : p ∈ l) (hq : q ∈ l) (hk : p.1 = q.1) :
    p = q := by
  have h1 := lookupA_of_mem l p hnd hp
  have h2 := lookupA_of_mem l q hnd hq
  rw [hk] at h1
  rw [h1] at h2
  obtain ⟨a, b⟩ := p
  obtain ⟨c, d⟩ := q
  simp at hk h2 ⊢
  exact ⟨hk, h2⟩

/-- The names already in the `used` set after `s` accepted draws. -/
def exOf (chars : Nat → Nat) (size : Nat) (s : Nat) : List GoStr :=
  (List.range s).map (nameAt chars size)

/-- With at least one retry and a candidate outside the `used` set, the first
draw is accepted. -/
theorem uniqueAttributeName_fresh (chars : Nat → Nat) (size r slot : Nat)
    (ex : List GoStr) (h : nameAt chars size slot ∉ ex) :
    uniqueAttributeName chars size (r + 1) slot ex
      = .ok (nameAt chars size slot, slot + 1) := by
  rw [uniqueAttributeName]
  simp [h]

/-- A chunk-free `createMaps` run: if every blob fits in `maxAttrValueSize`,
the candidate names are pairwise distinct on the consumed slots, every family
is good, and at least one retry is allowed, then `createMaps` assigns the
`i`-th fresh name to the `i`-th attribute and stores one blob per attribute. -/
theorem createMapsAux_noChunk {T : Type} (packer : IDSerialiser T)
    (penc : T → List Nat) (hpenc : ∀ t, packer.pack t = .ok (penc t))
    (encKey : Option (List Nat)) (chars : Nat → Nat)
    (size retries maxAttr maxSize : Nat) (hret : 1 ≤ retries) :
    ∀ (l : List (GoStr × GoVal T)) (s : Nat)
      (accA : List (GoStr × List GoStr)) (accV : List (GoStr × List Nat)),
      (∀ p ∈ l, isGoodVal p.2 = true) →
      (∀ p ∈ l, (blobOf encKey penc p.2).length ≤ maxAttr) →
      (∀ i j, i < s + l.length → j < s + l.length → i ≠ j →
        nameAt chars size i ≠ nameAt chars size j) →
      createMapsAux packer encKey chars size retries maxAttr maxSize l s
          (exOf chars size s) accA accV
        = (.ok (accA ++ specAttrMap chars size s l,
            accV ++ specValMap chars size encKey penc s l,
            s + l.length, exOf chars size (s + l.length)), l) := by
  intro l
  induction l with
  | nil =>
    intro s accA accV hgood hsize hfresh
    simp [createMapsAux, specAttrMap, specValMap]
  | cons hd tl ih =>
    intro s accA accV hgood hsize hfresh
    obtain ⟨k, v⟩ := hd
    have hslt : s < s + ((k, v) :: tl).length := by simp
    have hnotmem : nameAt chars size s ∉ exOf chars size s := by
      intro hmem
      rw [exOf, List.mem_map] at hmem
      obtain ⟨j, hj, hje⟩ := hmem
      rw [List.mem_range] at hj
      exact hfresh j s (lt_trans hj hslt) hslt (Nat.ne_of_lt hj) hje
    obtain ⟨r, hr⟩ : ∃ r, retries = r + 1 := ⟨retries - 1, by omega⟩
    have huan := uniqueAttributeName_fresh chars size r s (exOf chars size s) hnotmem
    rw [createMapsAux.eq_def]
    dsimp only
    rw [encodeAttrTuple_eq packer penc hpenc v (hgood (k, v) (by simp))]
    dsimp only
    rw [show toBytesManyEnc encKey (tupOf penc v) = blobOf encKey penc v from rfl]
    rw [chunkSplit_last chars size retries maxAttr maxSize
        ((blobOf encKey penc v).length + 1) (blobOf encKey penc v) s
        (exOf chars size s) [] accV (nameAt chars size s) (s + 1)
        (by have h := hsize (k, v) (by simp); dsimp only at h; omega) (hr ▸ huan)]
    dsimp only
    have hex : exOf chars size s ++ [nameAt chars size s] = exOf chars size (s + 1) := by
      rw [exOf, exOf, List.range_succ, List.map_append]
      rfl
    rw [hex]
    simp only [List.nil_append]
    have hfresh' : ∀ i j, i < (s + 1) + tl.length → j < (s + 1) + tl.length → i ≠ j →
        nameAt chars size i ≠ nameAt chars size j := by
      intro i j hi hj hne
      exact hfresh i j (by simp at hi ⊢; omega) (by simp at hj ⊢; omega) hne
    rw [ih (s + 1) (accA ++ [(k, [nameAt chars size s])]) (accV ++ [(nameAt chars size s, blobOf encKey penc v)])
        (fun p hp => hgood p (by simp [hp])) (fun p hp => hsize p (by simp [hp])) hfresh']
    have hlen : (s + 1) + tl.length = s + (tl.length + 1) := by omega
    simp [specAttrMap, specValMap, hlen]

/-- Pairs collected past the budget are pairs of the input. -/
theorem splitRest_subset : ∀ (rem : Int) (l : List (GoStr × List Nat)),
    ∀ p ∈ splitRest rem l, p ∈ l := by
  intro rem l
  induction l generalizing rem with
  | nil => intro p hp; simp [splitRest] at hp
  | cons q tl ih =>
    intro p hp
    rw [splitRest] at hp
    split at hp
    · rcases List.mem_cons.mp hp with h | h
      · simp [h]
      · exact List.mem_cons_of_mem q (ih _ p h)
    · exact List.mem_cons_of_mem q (ih _ p hp)

theorem insertLe_mem (p : GoStr × List Nat) :
    ∀ (l : List (GoStr × List Nat)) (q : GoStr × List Nat),
      q ∈ insertLe p l → q = p ∨ q ∈ l := by
  intro l
  induction l with
  | nil => intro q hq; simp [insertLe] at hq; simp [hq]
  | cons r tl ih =>
    intro q hq
    rw [insertLe] at hq
    split at hq
    · rcases List.mem_cons.mp hq with h | h
      · exact Or.inl h
      · exact Or.inr h
    · rcases List.mem_cons.mp hq with h | h
      · exact Or.inr (by simp [h])
      · rcases ih q h with h2 | h2
        · exact Or.inl h2
        · exact Or.inr (List.mem_cons_of_mem r h2)

theorem sortByLen_mem : ∀ (l : List (GoStr × List Nat)) (q : GoStr × List Nat),
    q ∈ sortByLen l → q ∈ l := by
  intro l
  induction l with
  | nil => intro q hq; simp [sortByLen] at hq
  | cons p tl ih =>
    intro q hq
    rw [sortByLen] at hq
    rcases insertLe_mem p (sortByLen tl) q hq with h | h
    · simp [h]
    · exact List.mem_cons_of_mem p (ih q h)

/-- First-fit insertion keeps every bin's pairs inside the source set. -/
theorem firstFitInsert_from (maxSize : Nat) (s : List (GoStr × List Nat))
    (p : GoStr × List Nat) (hp : p ∈ s) :
    ∀ (bins : List PackBin), (∀ b ∈ bins, ∀ q ∈ b.content, q ∈ s) →
      ∀ b ∈ firstFitInsert maxSize p bins, ∀ q ∈ b.content, q ∈ s := by
  intro bins
  induction bins with
  | nil =>
    intro hb b hbmem q hq
    simp [firstFitInsert] at hbmem
    subst hbmem
    simp at hq
    exact hq ▸ hp
  | cons b0 tl ih =>
    intro hb b hbmem q hq
    rw [firstFitInsert] at hbmem
    split at hbmem
    · rcases List.mem_cons.mp hbmem with h | h
      · subst h
        simp at hq
        rcases hq with h2 | h2
        · exact hb b0 (by simp) q h2
        · exact h2 ▸ hp
      · exact hb b (List.mem_cons_of_mem b0 h) q hq
    · rcases List.mem_cons.mp hbmem with h | h
      · exact hb b (h ▸ by simp) q hq
      · exact ih (fun b2 hb2 => hb b2 (List.mem_cons_of_mem b0 hb2)) b h q hq

/-- Folding first-fit insertion over a list of source pairs keeps every bin's
pairs inside the source set. -/
theorem firstFitFold_from (maxSize : Nat) (s : List (GoStr × List Nat)) :
    ∀ (l : List (GoStr × List Nat)), (∀ p ∈ l, p ∈ s) →
      ∀ (bins : List PackBin), (∀ b ∈ bins, ∀ q ∈ b.content, q ∈ s) →
      ∀ b ∈ l.foldl (fun acc p => firstFitInsert maxSize p acc) bins,
        ∀ q ∈ b.content, q ∈ s := by
  intro l
  induction l with
  | nil => intro hl bins hbins; simpa using hbins
  | cons p tl ih =>
    intro hl bins hbins
    rw [List.foldl_cons]
    exact ih (fun q hq => hl q (List.mem_cons_of_mem p hq))
      (firstFitInsert maxSize p bins)
      (firstFitInsert_from maxSize s p (hl p (by simp)) bins hbins)

/-- Members of an upsert-built map come from the inserted pairs. -/
theorem foldUpsert_mem [DecidableEq α] :
    ∀ (l : List (α × β)) (acc : List (α × β)) (q : α × β),
      q ∈ l.foldl (fun a p => upsert a p.1 p.2) acc → q ∈ acc ∨ q ∈ l := by
  intro l
  induction l with
  | nil => intro acc q hq; simp at hq; exact Or.inl hq
  | cons p tl ih =>
    intro acc q hq
    rw [List.foldl_cons] at hq
    rcases ih (upsert acc p.1 p.2) q hq with h | h
    · rcases upsert_mem acc p.1 p.2 q h with h2 | h2
      · exact Or.inr (by simp [h2])
      · exact Or.inl h2
    · exact Or.inr (List.mem_cons_of_mem p h)

/-- The invariant of the bin-allocation fold in `createElements`: the key list
keeps the primary key first, the primary row keeps the full `vals` map, and
every row's pairs come from `vals`. -/
theorem binsFold_inv {T : Type} [DecidableEq T] (creator : Nat → T) (key : T)
    (vals : List (GoStr × List Nat)) (hck : ∀ i, creator i ≠ key) :
    ∀ (bins : List PackBin), (∀ b ∈ bins, ∀ q ∈ b.content, q ∈ vals) →
    ∀ (ks : List T) (att : List (T × List (GoStr × List Nat))) (c : Nat),
      (∃ tl, ks = key :: tl) → lookupA att key = some vals →
      (∀ r ∈ att, ∀ p ∈ r.2, p ∈ vals) →
      (∃ tl, (bins.foldl
          (fun s bin =>
            match s with
            | (ks, att, c) =>
              (ks ++ [creator c],
                upsert att (creator c) (bin.content.foldl (fun m p => upsert m p.1 p.2) []),
                c + 1))
          (ks, att, c)).1 = key :: tl) ∧
      lookupA (bins.foldl
          (fun s bin =>
            match s with
            | (ks, att, c) =>
              (ks ++ [creator c],
                upsert att (creator c) (bin.content.foldl (fun m p => upsert m p.1 p.2) []),
                c + 1))
          (ks, att, c)).2.1 key = some vals ∧
      (∀ r ∈ (bins.foldl
          (fun s bin =>
            match s with
            | (ks, att, c) =>
              (ks ++ [creator c],
                upsert att (creator c) (bin.content.foldl (fun m p => upsert m p.1 p.2) []),
                c + 1))
          (ks, att, c)).2.1, ∀ p ∈ r.2, p ∈ vals) := by
  intro bins
  induction bins with
  | nil =>
    intro hbins ks att c hks hlk hrows
    exact ⟨hks, hlk, hrows⟩
  | cons b0 tl ih =>
    intro hbins ks att c hks hlk hrows
    rw [List.foldl_cons]
    apply ih (fun b hb => hbins b (List.mem_cons_of_mem b0 hb))
    · obtain ⟨t2, ht2⟩ := hks
      exact ⟨t2 ++ [creator c], by simp [ht2]⟩
    · rw [lookupA_upsert_ne _ _ _ _ (Ne.symm (hck c))]
      exact hlk
    · intro r hr p hp
      rcases upsert_mem att (creator c)
          (b0.content.foldl (fun m p => upsert m p.1 p.2) []) r hr with h | h
      · subst h
        simp only at hp
        rcases foldUpsert_mem b0.content [] p hp with h2 | h2
        · simp at h2
        · exact hbins b0 (by simp) p h2
      · exact hrows r h p hp

/-- `createElements` always lists the primary key first, keeps the whole
`vals` map in the primary row, and only redistributes pairs of `vals` into the
overflow rows. -/
theorem createElements_spec {T : Type} [DecidableEq T] (creator : Nat → T)
    (cctr maxSize : Nat) (key : T) (vals : List (GoStr × List Nat))
    (hck : ∀ i, creator i ≠ key) :
    (∃ tl, (createElements creator cctr maxSize key vals).1 = key :: tl) ∧
      lookupA (createElements creator cctr maxSize key vals).2.1 key = some vals ∧
      (∀ r ∈ (createElements creator cctr maxSize key vals).2.1,
        ∀ p ∈ r.2, p ∈ vals) := by
  rw [createElements.eq_def]
  dsimp only
  split
  · refine ⟨⟨[], rfl⟩, ?_, ?_⟩
    · exact lookupA_cons_self (key, vals) []
    · intro r hr p hp
      simp at hr
      subst hr
      exact hp
  · have hbins : ∀ b ∈ (sortByLen (splitRest ((maxSize : Int) - (minSize : Int)) vals)).foldl
        (fun acc p => firstFitInsert maxSize p acc) [],
        ∀ q ∈ b.content, q ∈ vals := by
      apply firstFitFold_from maxSize vals
      · intro p hp
        exact splitRest_subset _ vals p (sortByLen_mem _ p hp)
      · intro b hb
        simp at hb
    exact binsFold_inv creator key vals hck _ hbins [key] [(key, vals)] cctr
      ⟨[], rfl⟩ (lookupA_cons_self (key, vals) [])
      (by intro r hr p hp; simp at hr; subst hr; exact hp)

theorem specAttrMap_keys {T : Type} (chars : Nat → Nat) (size : Nat) :
    ∀ (s : Nat) (l : List (GoStr × GoVal T)),
      (specAttrMap chars size s l).map Prod.fst = l.map Prod.fst := by
  intro s l
  induction l generalizing s with
  | nil => rfl
  | cons p tl ih =>
    obtain ⟨k, v⟩ := p
    simp [specAttrMap, ih]

theorem specAttrMap_snd_ne_nil {T : Type} (chars : Nat → Nat) (size : Nat) :
    ∀ (s : Nat) (l : List (GoStr × GoVal T)) (p : GoStr × List GoStr),
      p ∈ specAttrMap chars size s l → p.2 ≠ [] := by
  intro s l
  induction l generalizing s with
  | nil => intro p hp; simp [specAttrMap] at hp
  | cons q tl ih =>
    obtain ⟨k, v⟩ := q
    intro p hp
    rw [specAttrMap] at hp
    rcases List.mem_cons.mp hp with h | h
    · rw [h]
      simp
    · exact ih (s + 1) p h

theorem specValMap_keys_mem {T : Type} (chars : Nat → Nat) (size : Nat)
    (encKey : Option (List Nat)) (penc : T → List Nat) :
    ∀ (s : Nat) (l : List (GoStr × GoVal T)) (n : GoStr),
      n ∈ (specValMap chars size encKey penc s l).map Prod.fst →
      ∃ i, s ≤ i ∧ i < s + l.length ∧ n = nameAt chars size i := by
  intro s l
  induction l generalizing s with
  | nil => intro n hn; simp [specValMap] at hn
  | cons p tl ih =>
    obtain ⟨k, v⟩ := p
    intro n hn
    rw [specValMap] at hn
    simp only [List.map_cons, List.mem_cons] at hn
    rcases hn with h | h
    · exact ⟨s, le_refl s, by simp, h⟩
    · obtain ⟨i, h1, h2, h3⟩ := ih (s + 1) n h
      exact ⟨i, by omega, by simp at h2 ⊢; omega, h3⟩

theorem specValMap_keys_nodup {T : Type} (chars : Nat → Nat) (size : Nat)
    (encKey : Option (List Nat)) (penc : T → List Nat) :
    ∀ (s : Nat) (l : List (GoStr × GoVal T)),
      (∀ i j, s ≤ i → i < s + l.length → s ≤ j → j < s + l.length → i ≠ j →
        nameAt chars size i ≠ nameAt chars size j) →
      ((specValMap chars size encKey penc s l).map Prod.fst).Nodup := by
  intro s l
  induction l generalizing s with
  | nil => intro hfresh; simp [specValMap]
  | cons p tl ih =>
    obtain ⟨k, v⟩ := p
    intro hfresh
    rw [specValMap]
    simp only [List.map_cons, List.nodup_cons]
    constructor
    · intro hmem
      obtain ⟨i, h1, h2, h3⟩ := specValMap_keys_mem chars size encKey penc (s + 1) tl _ hmem
      exact hfresh s i (le_refl s) (by simp) (by omega) (by simp at h2 ⊢; omega) (by omega) h3
    · exact ih (s + 1) (fun i j hi1 hi2 hj1 hj2 hne =>
        hfresh i j (by omega) (by simp at hi2 ⊢; omega) (by omega) (by simp at hj2 ⊢; omega) hne)

/-- `lookupA` hits are members. -/
theorem lookupA_mem [DecidableEq α] (l : List (α × β)) (k : α) (v : β)
    (h : lookupA l k = some v) : (k, v) ∈ l := by
  unfold lookupA at h
  cases hf : l.find? (fun p => p.1 = k) with
  | none => rw [hf] at h; simp at h
  | some p =>
    rw [hf] at h
    simp at h
    have hm := List.mem_of_find?_eq_some hf
    have hk := List.find?_some hf
    simp at hk
    have : (k, v) = p := by
      obtain ⟨a, b⟩ := p
      simp at hk h
      simp [hk, h]
    exact this ▸ hm

/-- Upserting pairs that agree with a key-nodup reference map preserves every
reference lookup. -/
theorem foldUpsert_preserves [DecidableEq α] (vals : List (α × β))
    (hnd : (vals.map Prod.fst).Nodup) :
    ∀ (m acc : List (α × β)), (∀ q ∈ m, q ∈ vals) →
      (∀ p ∈ vals, lookupA acc p.1 = some p.2) →
      ∀ p ∈ vals, lookupA (m.foldl (fun a q => upsert a q.1 q.2) acc) p.1 = some p.2 := by
  intro m
  induction m with
  | nil => intro acc hm hacc p hp; simpa using hacc p hp
  | cons q tl ih =>
    intro acc hm hacc p hp
    rw [List.foldl_cons]
    apply ih (upsert acc q.1 q.2) (fun r hr => hm r (List.mem_cons_of_mem q hr))
    · intro p2 hp2
      by_cases hk : p2.1 = q.1
      · have : p2 = q := mem_eq_of_nodup_keys vals p2 q hnd hp2 (hm q (by simp)) hk
        rw [this]
        exact lookupA_upsert_self acc q.1 q.2
      · rw [lookupA_upsert_ne acc q.1 p2.1 q.2 hk]
        exact hacc p2 hp2
    · exact hp

/-- Folding fresh pairs into an association list is plain append. -/
theorem foldUpsert_append [DecidableEq α] :
    ∀ (l acc : List (α × β)), (l.map Prod.fst).Nodup →
      (∀ q ∈ acc, ∀ p ∈ l, q.1 ≠ p.1) →
      l.foldl (fun a q => upsert a q.1 q.2) acc = acc ++ l := by
  intro l
  induction l with
  | nil => intro acc hnd hdisj; simp
  | cons p tl ih =>
    intro acc hnd hdisj
    rw [List.foldl_cons]
    rw [show upsert acc p.1 p.2 = acc ++ [(p.1, p.2)] from
      upsert_fresh acc p.1 p.2 (fun q hq => hdisj q hq p (by simp))]
    rw [List.map_cons, List.nodup_cons] at hnd
    rw [ih (acc ++ [(p.1, p.2)]) hnd.2 ?_]
    · simp
    · intro q hq r hr
      rw [List.mem_append] at hq
      rcases hq with h | h
      · exact hdisj q h r (List.mem_cons_of_mem p hr)
      · simp at h
        rw [h]
        intro hc
        exact hnd.1 (hc ▸ List.mem_map_of_mem Prod.fst hr)

/-- Every loader-merge step over further rows preserves the `valMap` lookups. -/
theorem loaderFold_preserves {T : Type} [DecidableEq T] (rows : RowMap T)
    (vals : List (GoStr × List Nat)) (hnd : (vals.map Prod.fst).Nodup)
    (hrows : ∀ r ∈ rows, ∀ p ∈ r.2, p ∈ vals) :
    ∀ (keys : List T) (acc : List (GoStr × List Nat)),
      (∀ p ∈ vals, lookupA acc p.1 = some p.2) →
      ∀ p ∈ vals,
        lookupA (keys.foldl
          (fun acc k =>
            match lookupA rows k with
            | some m => m.foldl (fun a q => upsert a q.1 q.2) acc
            | none => acc)
          acc) p.1 = some p.2 := by
  intro keys
  induction keys with
  | nil => intro acc hQ p hp; simpa using hQ p hp
  | cons k tl ih =>
    intro acc hQ p hp
    rw [List.foldl_cons]
    cases hm : lookupA rows k with
    | none =>
      simp only [hm]
      exact ih acc hQ p hp
    | some m =>
      simp only [hm]
      refine ih _ ?_ p hp
      exact foldUpsert_preserves vals hnd m acc
        (fun q hq => hrows (k, m) (lookupA_mem rows k m hm) q hq) hQ

/-- The merged map served by the tests' data loader answers every `valMap`
lookup, when the primary row carries all of `valMap` and every other row only
redistributes its pairs. -/
theorem loaderOf_adequate {T : Type} [DecidableEq T] (rows : RowMap T)
    (key : T) (tl : List T) (vals : List (GoStr × List Nat))
    (hnd : (vals.map Prod.fst).Nodup)
    (hlk : lookupA rows key = some vals)
    (hrows : ∀ r ∈ rows, ∀ p ∈ r.2, p ∈ vals) :
    ∃ md, loaderOf rows (key :: tl) = .ok md ∧
      ∀ p ∈ vals, lookupA md p.1 = some p.2 := by
  refine ⟨_, rfl, ?_⟩
  rw [List.foldl_cons]
  simp only [hlk]
  have hmd0 : vals.foldl (fun a q => upsert a q.1 q.2) [] = vals := by
    rw [foldUpsert_append vals [] hnd (by simp)]
    simp
  rw [hmd0]
  exact loaderFold_preserves rows vals hnd hrows tl vals
    (fun p hp => lookupA_of_mem vals p hnd hp)

/-- Rebuilding the attr map from its wire form restores it when the original
attribute names are distinct (each entry has at least the head name plus one
row name). -/
theorem unpackAttrMapLoop_ok :
    ∀ (l : List (GoStr × List GoStr)) (acc : List (GoStr × List GoStr)),
      ((l.map Prod.fst).Nodup) →
      (∀ q ∈ acc, ∀ p ∈ l, q.1 ≠ p.1) →
      (∀ p ∈ l, p.2 ≠ []) →
      unpackAttrMapLoop (l.map fun p => .vStrings (p.1 :: p.2)) acc = .ok (acc ++ l) := by
  intro l
  induction l with
  | nil => intro acc hnd hdisj hne; simp [unpackAttrMapLoop]
  | cons p tl ih =>
    intro acc hnd hdisj hne
    obtain ⟨k, v⟩ := p
    cases v with
    | nil => exact absurd rfl (hne (k, []) (by simp))
    | cons s1 vt =>
      simp only [List.map_cons]
      rw [unpackAttrMapLoop]
      rw [show upsert acc k (s1 :: vt) = acc ++ [(k, s1 :: vt)] from
        upsert_fresh acc k (s1 :: vt) (fun q hq => hdisj q hq (k, s1 :: vt) (by simp))]
      rw [List.map_cons, List.nodup_cons] at hnd
      rw [ih (acc ++ [(k, s1 :: vt)]) hnd.2 ?_ (fun q hq => hne q (List.mem_cons_of_mem _ hq))]
      · simp
      · intro q hq r hr
        rw [List.mem_append] at hq
        rcases hq with h | h
        · exact hdisj q h r (List.mem_cons_of_mem _ hr)
        · simp at h
          rw [h]
          intro hc
          exact hnd.1 (hc ▸ List.mem_map_of_mem Prod.fst hr)

/-- `unpackAttrMap ∘ packAttrMap` is the identity on key-nodup attr maps with
non-empty row-name lists. -/
theorem unpackAttrMap_packAttrMap (aM : List (GoStr × List GoStr))
    (hnd : (aM.map Prod.fst).Nodup) (hne : ∀ p ∈ aM, p.2 ≠ []) :
    unpackAttrMap (packAttrMap aM) = .ok aM := by
  rw [unpackAttrMap, packAttrMap]
  rw [show (aM.map fun p => SValue.vStrings (p.1 :: p.2))
      = aM.map (fun p => SValue.vStrings (p.1 :: p.2)) from rfl]
  rw [decodeMany_encodeMany]
  dsimp only
  rw [unpackAttrMapLoop_ok aM [] hnd (by simp) hne]
  simp

/-- Unpacking the packed element keys restores them. -/
theorem unpackElementsLoop_ok {T : Type} (packer : IDSerialiser T)
    (penc : T → List Nat) (hpdec : ∀ t, packer.unpack (penc t) = .ok t) :
    ∀ (els : List T) (acc : List T),
      unpackElementsLoop packer ((els.map penc).map SValue.vBytes) acc
        = .ok (acc ++ els) := by
  intro els
  induction els with
  | nil => intro acc; simp [unpackElementsLoop]
  | cons t tl ih =>
    intro acc
    simp only [List.map_cons]
    rw [unpackElementsLoop, hpdec]
    dsimp only
    rw [ih]
    simp

theorem unpackElementsSlice_roundtrip {T : Type} (packer : IDSerialiser T)
    (penc : T → List Nat) (hpenc : ∀ t, packer.pack t = .ok (penc t))
    (hpdec : ∀ t, packer.unpack (penc t) = .ok t) (els : List T) :
    packElementsSlice packer els = .ok (encodeMany ((els.map penc).map SValue.vBytes)) ∧
      unpackElementsSlice packer (encodeMany ((els.map penc).map SValue.vBytes))
        = .ok els := by
  constructor
  · rw [packElementsSlice, packAll_ok packer penc hpenc]
  · rw [unpackElementsSlice, decodeMany_encodeMany]
    dsimp only
    rw [unpackElementsLoop_ok packer penc hpdec]
    simp

/-- The `dataMap` an attribute map rebuilds: one reassembled blob per original
attribute. -/
def specDataMap {T : Type} (encKey : Option (List Nat)) (penc : T → List Nat)
    (l : List (GoStr × GoVal T)) : List (GoStr × List Nat) :=
  l.map fun p => (p.1, blobOf encKey penc p.2)

/-- Reassembling from a loaded row map that answers every chunk-name lookup
rebuilds exactly one blob per attribute. -/
theorem buildDataMap_spec {T : Type} (chars : Nat → Nat) (size : Nat)
    (encKey : Option (List Nat)) (penc : T → List Nat)
    (md : List (GoStr × List Nat)) :
    ∀ (l : List (GoStr × GoVal T)) (s : Nat) (acc : List (GoStr × List Nat)),
      (∀ p ∈ specValMap chars size encKey penc s l, lookupA md p.1 = some p.2) →
      ((l.map Prod.fst).Nodup) →
      (∀ q ∈ acc, ∀ p ∈ l, q.1 ≠ p.1) →
      buildDataMap md (specAttrMap chars size s l) acc
        = .ok (acc ++ specDataMap encKey penc l) := by
  intro l
  induction l with
  | nil => intro s acc hmd hnd hdisj; simp [specAttrMap, buildDataMap, specDataMap]
  | cons p tl ih =>
    intro s acc hmd hnd hdisj
    obtain ⟨k, v⟩ := p
    rw [specAttrMap, buildDataMap]
    rw [show concatChunks md [nameAt chars size s] = .ok (blobOf encKey penc v) from ?_]
    · dsimp only
      rw [show upsert acc k (blobOf encKey penc v) = acc ++ [(k, blobOf encKey penc v)] from
        upsert_fresh acc k _ (fun q hq => hdisj q hq (k, v) (by simp))]
      rw [List.map_cons, List.nodup_cons] at hnd
      rw [ih (s + 1) (acc ++ [(k, blobOf encKey penc v)])
          (fun q hq => hmd q (by rw [specValMap]; exact List.mem_cons_of_mem _ hq))
          hnd.2 ?_]
      · simp [specDataMap]
      · intro q hq r hr
        rw [List.mem_append] at hq
        rcases hq with h | h
        · exact hdisj q h r (List.mem_cons_of_mem _ hr)
        · simp at h
          rw [h]
          intro hc
          exact hnd.1 (hc ▸ List.mem_map_of_mem Prod.fst hr)
    · rw [concatChunks]
      rw [show lookupA md (nameAt chars size s) = some (blobOf encKey penc v) from
        hmd (nameAt chars size s, blobOf encKey penc v) (by rw [specValMap]; simp)]
      simp [concatChunks]

/-- Unpacking a packed key sequence restores it. -/
theorem unpackSeq_ok {T : Type} (packer : IDSerialiser T) (penc : T → List Nat)
    (hpdec : ∀ t, packer.unpack (penc t) = .ok t) :
    ∀ ts : List T, unpackSeq packer ((ts.map penc).map SValue.vBytes) = .ok ts := by
  intro ts
  induction ts with
  | nil => rfl
  | cons t tl ih =>
    simp only [List.map_cons]
    rw [unpackSeq, hpdec, ih]

/-- `GetValues`' arity dispatch decrypts each good family tuple back to the
original value. -/
theorem decodeAttrValue_toRVal {T : Type} (packer : IDSerialiser T)
    (penc : T → List Nat) (hpdec : ∀ t, packer.unpack (penc t) = .ok t)
    (v : GoVal T) (hv : isGoodVal v = true) :
    decodeAttrValue packer (tupOf penc v) = .ok (toRVal v) := by
  cases v with
  | plain w => rfl
  | key t => simp [tupOf, decodeAttrValue, hpdec, toRVal]
  | keyRef t => simp [tupOf, decodeAttrValue, hpdec, toRVal]
  | keyRefs ts => simp [isGoodVal] at hv
  | keys ts =>
    cases ts with
    | nil => simp [isGoodVal] at hv
    | cons t tl =>
      have hshape : tupOf penc (GoVal.keys (t :: tl))
          = SValue.vBool true :: SValue.vInt64 (((t :: tl).length : Nat) : Int)
            :: SValue.vBytes (penc t) :: (tl.map penc).map SValue.vBytes := by
        simp [tupOf]
      rw [hshape, decodeAttrValue.eq_def]
      dsimp only
      rw [if_neg ?hneg]
      · have htake : ((SValue.vBytes (penc t) :: (tl.map penc).map SValue.vBytes).take
            ((((t :: tl).length : Nat) : Int)).toNat)
            = ((t :: tl).map penc).map SValue.vBytes := by
          simp
        rw [htake, unpackSeq_ok packer penc hpdec]
        rfl
      case hneg =>
        push_neg
        constructor
        · exact Int.ofNat_nonneg _
        · simp

theorem specDataMap_keys {T : Type} (encKey : Option (List Nat))
    (penc : T → List Nat) (l : List (GoStr × GoVal T)) :
    (specDataMap encKey penc l).map Prod.fst = l.map Prod.fst := by
  induction l with
  | nil => rfl
  | cons p tl ih =>
    simp [specDataMap]

/-- Requesting one original attribute of the reassembled item decrypts it back
to the original value. -/
theorem GetValues_single {T : Type} [DecidableEq T] (fuel : Nat) (prov : Provider)
    (packer : IDSerialiser T) (penc : T → List Nat)
    (hpdec : ∀ t, packer.unpack (penc t) = .ok t)
    (key : T) (attrs : List (GoStr × GoVal T)) (apn : GoStr) (dek : List Nat)
    (hnodup : (attrs.map Prod.fst).Nodup)
    (k : GoStr) (v : GoVal T) (hmem : (k, v) ∈ attrs) (hgood : isGoodVal v = true) :
    GetValues (fuel + 1)
        (⟨key, specDataMap (some dek) penc attrs, (prov.New dek).1, apn, packer⟩ :
          EncryptedItem T)
        [k] (some prov)
      = .ok [(k, toRVal v)] := by
  rw [GetValues]
  rw [if_neg (by simp)]
  dsimp only
  rw [Provider.decrypt_new_self prov dek fuel]
  dsimp only
  have hlk : lookupA (specDataMap (some dek) penc attrs) k = some (blobOf (some dek) penc v) := by
    have : ((k, v).1, blobOf (some dek) penc (k, v).2) ∈ specDataMap (some dek) penc attrs := by
      rw [specDataMap]
      exact List.mem_map_of_mem _ hmem
    have hnd2 : ((specDataMap (some dek) penc attrs).map Prod.fst).Nodup := by
      rw [specDataMap_keys]
      exact hnodup
    exact lookupA_of_mem _ ((k, v).1, blobOf (some dek) penc (k, v).2) hnd2 this
  simp only [List.foldlM, hlk]
  rw [show blobOf (some dek) penc v = toBytesManyEnc (some dek) (tupOf penc v) from rfl]
  rw [fromBytesManyEnc_toBytesManyEnc]
  dsimp only
  rw [decodeAttrValue_toRVal packer penc hpdec v hgood]
  rfl

/-- The V1 engine's output on a chunk-free, good-family item: the envelope
carries the wrapped DEK, the packer and approach names, and the encrypted
triple of packed key, attr-map bytes and element bytes; the row map is the
`createElements` distribution of the spec val map. -/
theorem packDetailsV1_spec {T : Type} [DecidableEq T] (creator : Nat → T)
    (packer : IDSerialiser T) (penc : T → List Nat)
    (hpenc : ∀ t, packer.pack t = .ok (penc t))
    (apn : GoStr) (o : Options) (chars : Nat → Nat) (item : Item T)
    (wrapped dek : List Nat)
    (hret : 1 ≤ o.attrNameRetries)
    (hgood : ∀ p ∈ item.attributes, isGoodVal p.2 = true)
    (hsize : ∀ p ∈ item.attributes,
      (blobOf (some dek) penc p.2).length ≤ o.maxAttrValueSize)
    (hfresh : ∀ i j, i < item.attributes.length → j < item.attributes.length →
      i ≠ j → nameAt chars o.attrNameSize i ≠ nameAt chars o.attrNameSize j) :
    packDetailsV1 creator packer apn o chars item wrapped dek
      = (.ok
          (encodeMany
            [.vBytes wrapped, .vString packer.name, .vString apn,
              .vBytes (toBytesManyEnc (some dek)
                [.vBytes (penc item.key),
                  .vBytes (packAttrMap (specAttrMap chars o.attrNameSize 0 item.attributes)),
                  .vBytes (encodeMany
                    (((createElements creator 0 o.maxSize item.key
                        (specValMap chars o.attrNameSize (some dek) penc 0
                          item.attributes)).1.map penc).map SValue.vBytes))])],
            (createElements creator 0 o.maxSize item.key
              (specValMap chars o.attrNameSize (some dek) penc 0 item.attributes)).2.1),
        item) := by
  have hfresh0 : ∀ i j, i < 0 + item.attributes.length → j < 0 + item.attributes.length →
      i ≠ j → nameAt chars o.attrNameSize i ≠ nameAt chars o.attrNameSize j := by
    intro i j hi hj hne
    exact hfresh i j (by omega) (by omega) hne
  have hcm := createMapsAux_noChunk packer penc hpenc (some dek) chars
    o.attrNameSize o.attrNameRetries o.maxAttrValueSize o.maxSize hret
    item.attributes 0 [] [] hgood hsize hfresh0
  rw [show exOf chars o.attrNameSize 0 = [] from rfl] at hcm
  simp only [List.nil_append, Nat.zero_add] at hcm
  rw [packDetailsV1.eq_def, hcm]
  dsimp only
  rcases hce : createElements creator 0 o.maxSize item.key
      (specValMap chars o.attrNameSize (some dek) penc 0 item.attributes)
    with ⟨elements, output, cc⟩
  dsimp only
  rw [hpenc item.key]
  dsimp only
  rw [show packElementsSlice packer elements
      = .ok (encodeMany ((elements.map penc).map SValue.vBytes)) from by
    rw [packElementsSlice, packAll_ok packer penc hpenc]]

/-- Unpacking the V1 envelope produced by `packDetailsV1_spec` with the tests'
loader over the returned rows rebuilds the item key and one ciphertext per
original attribute. -/
theorem unpackDetailsV1_spec {T : Type} [DecidableEq T] (creator : Nat → T)
    (packer : IDSerialiser T) (penc : T → List Nat)
    (hpenc : ∀ t, packer.pack t = .ok (penc t))
    (hpdec : ∀ t, packer.unpack (penc t) = .ok t)
    (apn : GoStr) (o : Options) (chars : Nat → Nat) (item : Item T)
    (prov : Provider) (dek : List Nat) (fuel : Nat)
    (retr : GoStr → Except PErr (IDSerialiser T))
    (hretr : retr packer.name = .ok packer)
    (hck : ∀ i, creator i ≠ item.key)
    (hnodup : (item.attributes.map Prod.fst).Nodup)
    (hfresh : ∀ i j, i < item.attributes.length → j < item.attributes.length →
      i ≠ j → nameAt chars o.attrNameSize i ≠ nameAt chars o.attrNameSize j) :
    unpackDetailsV1 (fuel + 1)
        (encodeMany
          [.vBytes (prov.New dek).1, .vString packer.name, .vString apn,
            .vBytes (toBytesManyEnc (some dek)
              [.vBytes (penc item.key),
                .vBytes (packAttrMap (specAttrMap chars o.attrNameSize 0 item.attributes)),
                .vBytes (encodeMany
                  (((createElements creator 0 o.maxSize item.key
                      (specValMap chars o.attrNameSize (some dek) penc 0
                        item.attributes)).1.map penc).map SValue.vBytes))])])
        prov
        (loaderOf ((createElements creator 0 o.maxSize item.key
          (specValMap chars o.attrNameSize (some dek) penc 0 item.attributes)).2.1))
        retr
      = .ok ⟨item.key, specDataMap (some dek) penc item.attributes,
          (prov.New dek).1, apn, packer⟩ := by
  have hvmnd : ((specValMap chars o.attrNameSize (some dek) penc 0
      item.attributes).map Prod.fst).Nodup := by
    apply specValMap_keys_nodup
    intro i j _ hi _ hj hne
    exact hfresh i j (by omega) (by omega) hne
  obtain ⟨hktl, hlk, hrows⟩ := createElements_spec creator 0 o.maxSize item.key
    (specValMap chars o.attrNameSize (some dek) penc 0 item.attributes) hck
  obtain ⟨etl, hetl⟩ := hktl
  rw [unpackDetailsV1.eq_def, decodeMany_encodeMany]
  dsimp only
  rw [hretr]
  dsimp only
  rw [Provider.decrypt_new_self prov dek fuel]
  dsimp only
  rw [fromBytesManyEnc_toBytesManyEnc]
  dsimp only
  rw [hpdec item.key]
  dsimp only
  rw [unpackAttrMap_packAttrMap (specAttrMap chars o.attrNameSize 0 item.attributes)
      (by rw [specAttrMap_keys]; exact hnodup)
      (specAttrMap_snd_ne_nil chars o.attrNameSize 0 item.attributes)]
  dsimp only
  rw [(unpackElementsSlice_roundtrip packer penc hpenc hpdec
      (createElements creator 0 o.maxSize item.key
        (specValMap chars o.attrNameSize (some dek) penc 0 item.attributes)).1).2]
  dsimp only
  obtain ⟨md, hmd, hmdQ⟩ := loaderOf_adequate
    ((createElements creator 0 o.maxSize item.key
      (specValMap chars o.attrNameSize (some dek) penc 0 item.attributes)).2.1)
    item.key etl
    (specValMap chars o.attrNameSize (some dek) penc 0 item.attributes)
    hvmnd hlk hrows
  rw [show (createElements creator 0 o.maxSize item.key
      (specValMap chars o.attrNameSize (some dek) penc 0 item.attributes)).1
      = item.key :: etl from hetl]
  rw [hmd]
  dsimp only
  rw [buildDataMap_spec chars o.attrNameSize (some dek) penc md
      item.attributes 0 [] hmdQ hnodup (by simp)]
  simp

/-- `applyDefaults2` only touches `maxAttrValueSize`, never the retries. -/
theorem applyDefaults2_retries (o : Options) :
    (applyDefaults2 o).attrNameRetries = o.attrNameRetries := by
  simp only [applyDefaults2]
  split_ifs <;> rfl

/-- The resolved options always allow at least one naming attempt:
`applyDefaults1` replaces a zero retry count with 1. -/
theorem resolveOptions_retries (opts : List (Options → Options)) :
    1 ≤ (resolveOptions opts).attrNameRetries := by
  rw [resolveOptions, applyDefaults2_retries]
  simp only [applyDefaults1]
  split_ifs <;> simp_all <;> omega

/-- The C1 counterexample item: one attribute named `"a"` holding an empty
key slice (a `[]T` of length zero) — a valid input in the claim's sense. -/
def c1xItem : Item Nat := ⟨0, [([97], GoVal.keys ([] : List Nat))]⟩

/-- The C1 counterexample `Pack` call: default options, fully populated
params. -/
def c1xPack := Pack wRnd (some c1xItem) (some natParams) []

/-- The envelope bytes the counterexample `Pack` returns. -/
def c1xEnv : List Nat :=
  match c1xPack.1 with
  | .ok (e, _) => e
  | .error _ => []

/-- The row map the counterexample `Pack` returns. -/
def c1xRows : RowMap Nat :=
  match c1xPack.1 with
  | .ok (_, r) => r
  | .error _ => []

set_option maxRecDepth 8000

/-- C1 counterexample: a fully valid item whose single attribute holds an
empty `[]T` packs cleanly, unpacks cleanly to an `EncryptedItem` with the
original key — but `GetValues` on the original attribute name returns
`ErrInvalidDataToUnpack` instead of the original empty slice: the stored
two-element tuple `[true, int64(0)]` falls into the arity-2 branch of
`GetValues`, which requires its second element to be a packed key. -/
theorem C1_counterexample :
    c1xPack.1 = .ok (c1xEnv, c1xRows) ∧
      (Unpack 2 c1xEnv (some ⟨some (loaderOf c1xRows),
          some (fun _ => .ok natPacker), some wProvider⟩)).map
        (fun e => (e.key, GetValues 2 e [[97]] (some wProvider)))
      = .ok (0, .error .invalidDataToUnpack) := by
  exact ⟨rfl, rfl⟩

/-- C1 (amended): the round trip holds on the chunk-free good family — every
item with a non-empty, key-distinct attribute map whose values are plain
codec values, single keys `T`, key references `*T` or non-empty key slices
`[]T` (not `[]*T`, not empty `[]T`), each encrypting within
`maxAttrValueSize`, packed under fully populated params with the default V1
version, an admissible `maxSize` and collision-free name draws: `Pack`
succeeds, `Unpack` of the envelope with a loader serving the returned rows
yields an `EncryptedItem` with the item's key, and `GetValues` on each
original attribute name returns exactly the original value. -/
theorem C1_round_trip {T : Type} [DecidableEq T] (rnd : PackRandom)
    (item : Item T) (ps : PackParams T) (opts : List (Options → Options))
    (prov : Provider) (creator : Nat → T) (packer : IDSerialiser T)
    (penc : T → List Nat) (apn : GoStr)
    (retr : GoStr → Except PErr (IDSerialiser T)) (fuel : Nat)
    (hprov : ps.provider = some prov) (hcr : ps.creator = some creator)
    (hpk : ps.packer = some packer) (hap : ps.approach = some apn)
    (hpenc : ∀ t, packer.pack t = .ok (penc t))
    (hpdec : ∀ t, packer.unpack (penc t) = .ok t)
    (hretr : retr packer.name = .ok packer)
    (hattrs : item.attributes ≠ [])
    (hnodup : (item.attributes.map Prod.fst).Nodup)
    (hgood : ∀ p ∈ item.attributes, isGoodVal p.2 = true)
    (hsize : ∀ p ∈ item.attributes,
      (blobOf (some rnd.dek) penc p.2).length ≤ (resolveOptions opts).maxAttrValueSize)
    (hfresh : ∀ i j, i < item.attributes.length → j < item.attributes.length →
      i ≠ j → nameAt rnd.chars (resolveOptions opts).attrNameSize i
        ≠ nameAt rnd.chars (resolveOptions opts).attrNameSize j)
    (hck : ∀ i, creator i ≠ item.key)
    (hver : (resolveOptions opts).packingVersion = 1)
    (hms : ¬(applyDefaults1 (foldOpts opts)).maxSize < minSize) :
    ∃ env rows,
      (Pack rnd (some item) (some ps) opts).1 = .ok (env, rows) ∧
      ∃ e, Unpack (fuel + 1) env
          (some ⟨some (loaderOf rows), some retr, some prov⟩) = .ok e ∧
        e.key = item.key ∧
        ∀ k v, (k, v) ∈ item.attributes →
          GetValues (fuel + 1) e [k] (some prov) = .ok [(k, toRVal v)] := by
  have hret : 1 ≤ (resolveOptions opts).attrNameRetries := resolveOptions_retries opts
  have hpd := packDetailsV1_spec creator packer penc hpenc apn (resolveOptions opts)
    rnd.chars item (prov.New rnd.dek).1 rnd.dek hret hgood hsize hfresh
  have hunp := unpackDetailsV1_spec creator packer penc hpenc hpdec apn
    (resolveOptions opts) rnd.chars item prov rnd.dek fuel retr hretr hck hnodup hfresh
  have hvx : ps.validateX = .ok (prov, creator, packer, apn) := by
    simp [PackParams.validateX, hprov, hcr, hpk, hap]
  have hlen : ¬item.attributes.length = 0 := by
    simpa [List.length_eq_zero] using hattrs
  refine ⟨encodeMany [.vInt8 1, .vBytes (encodeMany
      [.vBytes (prov.New rnd.dek).1, .vString packer.name, .vString apn,
        .vBytes (toBytesManyEnc (some rnd.dek)
          [.vBytes (penc item.key),
            .vBytes (packAttrMap
              (specAttrMap rnd.chars (resolveOptions opts).attrNameSize 0 item.attributes)),
            .vBytes (encodeMany
              (((createElements creator 0 (resolveOptions opts).maxSize item.key
                  (specValMap rnd.chars (resolveOptions opts).attrNameSize (some rnd.dek)
                    penc 0 item.attributes)).1.map penc).map SValue.vBytes))])])],
    (createElements creator 0 (resolveOptions opts).maxSize item.key
      (specValMap rnd.chars (resolveOptions opts).attrNameSize (some rnd.dek) penc 0
        item.attributes)).2.1,
    ?hpk2,
    ⟨item.key, specDataMap (some rnd.dek) penc item.attributes,
      (prov.New rnd.dek).1, apn, packer⟩, ?hunp2, rfl, ?hgv⟩
  case hpk2 =>
    rw [Pack.eq_def]
    dsimp only
    rw [if_neg hlen]
    rw [packItem.eq_def]
    dsimp only
    rw [hvx]
    dsimp only
    rw [if_neg hms]
    rw [show prov.New rnd.dek = ((prov.New rnd.dek).1, rnd.dek) from rfl]
    dsimp only
    rw [if_pos hver]
    rw [hpd]
    dsimp only
    rw [hver]
  case hunp2 =>
    rw [Unpack]
    rw [if_neg (by simp [encodeMany])]
    dsimp only [UnpackParams.validateX]
    rw [decodeMany_encodeMany]
    dsimp only
    rw [if_pos rfl]
    exact hunp
  case hgv =>
    intro k v hmem
    exact GetValues_single fuel prov packer penc hpdec item.key item.attributes apn
      rnd.dek hnodup k v hmem (hgood _ hmem)

/-- Witness for C1: a one-attribute item over `Nat` keys round-trips through
`Pack`, `Unpack` and `GetValues` with the concrete fixtures. -/
theorem C1_round_trip_witness :
    ∃ env rows,
      (Pack wRnd (some ⟨0, [([97], GoVal.plain (.vBool true))]⟩)
          (some natParams) []).1 = .ok (env, rows) ∧
      ∃ e, Unpack 2 env
          (some ⟨some (loaderOf rows), some (fun _ => .ok natPacker),
            some wProvider⟩) = .ok e ∧
        e.key = 0 ∧
        ∀ k v, (k, v) ∈ [([97], GoVal.plain (SValue.vBool true))] →
          GetValues 2 e [k] (some wProvider) = .ok [(k, toRVal v)] :=
  C1_round_trip wRnd ⟨0, [([97], GoVal.plain (.vBool true))]⟩ natParams []
    wProvider (fun i => i + 1) natPacker (fun t => [t]) [77]
    (fun _ => .ok natPacker) 1
    rfl rfl rfl rfl (fun _ => rfl) (fun _ => rfl) rfl
    (by simp) (by simp) (by decide) (by decide)
    (by
      intro i j hi hj hne
      simp only [List.length_cons, List.length_nil] at hi hj
      exact (hne (by omega)).elim)
    (fun i => Nat.succ_ne_zero i) (by decide) (by decide)

end Packer
